import Mathlib

/-!
# OTTO: inter-thread action bus, properties

A shallow embedding of `src/itc/action_bus.hpp` (the action bus, `send_to_bus`
and the self-registering receiver), of the property declarations of
`src/engines/fx/chorus/chorus.hpp` and `src/services/ui_manager.hpp`, and of
`src/util/dsp/sample.cpp` (sample bounds and the playback iterator).

Template parameters become ordinary values: a bus tag is a constructor of
`BusTag`, an action kind `Action<Tag, Args...>` is a record of a tag and its
ordered argument types, and the variable template
`detail::action_receiver_registry<BusTag, Action>` is a function from bus tag
and action kind to a registry.  Handler bodies are user code; a handler
invocation is recorded as a `Call` event.
-/

namespace otto.itc

/-- The three bus tag types `AudioBus`, `GraphicsBus`, `LogicBus`. -/
inductive BusTag where
  | AudioBus
  | GraphicsBus
  | LogicBus
  deriving DecidableEq, Repr

/-- An action kind `Action<Tag, Args...>`: a tag type and the ordered argument
types, both named by numbers.  Two kinds are equal iff both components agree. -/
structure Action where
  tag : Nat
  argTypes : List Nat
  deriving DecidableEq, Repr

/-- The argument bundle `ActionData<Action<Tag, Args...>>` built by
`Action::data(args...)`: the kind together with the argument values. -/
structure ActionData where
  action : Action
  args : List Int
  deriving DecidableEq, Repr

/-- The factory `Action<Tag, Args...>::data(args...)`. -/
def Action.data (a : Action) (args : List Int) : ActionData :=
  { action := a, args := args }

/-- One handler invocation: the receiver (its address), the action kind whose
handler is called, and the arguments passed. -/
structure Call where
  receiver : Nat
  action : Action
  args : List Int
  deriving DecidableEq, Repr

/-- Modelled from the spec: `ActionReceiverRegistry<Action>`
(`action_receiver_registry.hpp` is not part of the sources at hand).  It holds
non-owning receiver references in registration order. -/
structure ActionReceiverRegistry where
  receivers : List Nat
  deriving DecidableEq, Repr

/-- Modelled from the spec: `ActionReceiverRegistry::add`.  It inserts a
receiver reference at the end; adding a receiver that is already present is a
caller error that fails loudly, rendered here as `none`. -/
def ActionReceiverRegistry.add (reg : ActionReceiverRegistry) (r : Nat) :
    Option ActionReceiverRegistry :=
  if r ∈ reg.receivers then none else some { receivers := reg.receivers ++ [r] }

/-- Modelled from the spec: `ActionReceiverRegistry::remove`.  It erases the
receiver reference; removing an absent receiver does nothing. -/
def ActionReceiverRegistry.remove (reg : ActionReceiverRegistry) (r : Nat) :
    ActionReceiverRegistry :=
  { receivers := reg.receivers.erase r }

/-- Modelled from the spec: `ActionReceiverRegistry::call_all`.  It invokes the
handler of every currently registered receiver, in registration order, with the
given arguments. -/
def ActionReceiverRegistry.call_all (reg : ActionReceiverRegistry) (a : Action)
    (args : List Int) : List Call :=
  reg.receivers.map fun r => { receiver := r, action := a, args := args }

/-- The closure pushed by `ActionBus<BusTag>::send`:
`[ad] { action_receiver_registry<BusTag, Action<Tag, Args...>>.call_all(ad.args); }`.
It owns the argument bundle and names, by its type, the registry it will
consult when it is run. -/
structure Dispatch where
  bus : BusTag
  action : Action
  args : List Int
  deriving DecidableEq, Repr

/-- Running a pending dispatch against the registries as they are now. -/
def Dispatch.run (registry : BusTag → Action → ActionReceiverRegistry)
    (d : Dispatch) : List Call :=
  (registry d.bus d.action).call_all d.action d.args

/-- Modelled from the spec: `ActionQueue` (`action_queue.hpp` is not part of
the sources at hand).  A bounded, ordered sequence of deferred invocations with
a counter of dropped pushes. -/
structure ActionQueue where
  capacity : Nat
  pending : List Dispatch
  overflow : Nat
  deriving DecidableEq, Repr

/-- Modelled from the spec: `ActionQueue::push`.  It appends the dispatch; when
the queue is full it never blocks, drops the newest dispatch and records the
overflow. -/
def ActionQueue.push (q : ActionQueue) (d : Dispatch) : ActionQueue :=
  if q.pending.length < q.capacity then
    { q with pending := q.pending ++ [d] }
  else
    { q with overflow := q.overflow + 1 }

/-- Modelled from the spec: `ActionQueue::drain`.  It executes and removes every
dispatch present at call time, in enqueue order. -/
def ActionQueue.drain (q : ActionQueue) (exec : Dispatch → List Call) :
    ActionQueue × List Call :=
  ({ q with pending := [] }, (q.pending.map exec).flatten)

/-- The process-wide state of the bus framework: one registry per
(bus tag, action kind), one queue per bus (`ActionBus<BusTag>::queue`). -/
structure Sys where
  registry : BusTag → Action → ActionReceiverRegistry
  queue : BusTag → ActionQueue

/-- The state at program start: empty registries and empty queues of the given
capacities. -/
def Sys.init (capacity : BusTag → Nat) : Sys :=
  { registry := fun _ _ => { receivers := [] }
    queue := fun b => { capacity := capacity b, pending := [], overflow := 0 } }

/-- The function `ActionBus<BusTag>::send(action_data)`: push onto the queue of
this bus a closure that will call `call_all` on the registry of
(this bus, the action kind of the data). -/
def ActionBus.send (bus : BusTag) (action_data : ActionData) (s : Sys) : Sys :=
  { s with
    queue := Function.update s.queue bus
      ((s.queue bus).push
        { bus := bus, action := action_data.action, args := action_data.args }) }

/-- Draining the queue of one bus: the pending dispatches run against the
registries as they are at this moment. -/
def ActionBus.drain (bus : BusTag) (s : Sys) : Sys × List Call :=
  let r := (s.queue bus).drain (Dispatch.run s.registry)
  ({ s with queue := Function.update s.queue bus r.1 }, r.2)

/-- The template argument list `BusTags...` of `send_to_bus`: each element is a
bus tag or a nested `meta::list` of such elements. -/
inductive BusTags where
  | nil
  | tag (b : BusTag) (rest : BusTags)
  | nest (inner : BusTags) (rest : BusTags)
  deriving Repr

/-- The type function `meta::flatten_t<meta::list<BusTags...>>`. -/
def BusTags.flatten : BusTags → List BusTag
  | .nil => []
  | .tag b rest => b :: rest.flatten
  | .nest inner rest => inner.flatten ++ rest.flatten

/-- The function `send_to_bus<BusTags...>(a, args...)`: for each bus tag of the
flattened list, in order, `ActionBus<BusTag>::send(Action::data(args...))`. -/
def send_to_bus (tags : BusTags) (a : Action) (args : List Int) (s : Sys) : Sys :=
  tags.flatten.foldl (fun acc b => ActionBus.send b (a.data args) acc) s

/-- An object of type `ActionReceiverOnBus<BusTag, Actions...>`: its address
(`this`), its bus tag and its flattened `ActionList`. -/
structure ActionReceiverOnBus where
  this : Nat
  bus : BusTag
  actions : List Action
  deriving DecidableEq, Repr

/-- One iteration of the constructor loop:
`action_receiver_registry<BusTag, Action>.add(this)`. -/
def Sys.add (s : Sys) (bus : BusTag) (a : Action) (r : Nat) : Option Sys :=
  ((s.registry bus a).add r).map fun reg =>
    { s with
      registry := Function.update s.registry bus
        (Function.update (s.registry bus) a reg) }

/-- One iteration of the destructor loop:
`action_receiver_registry<BusTag, Action>.remove(this)`. -/
def Sys.remove (s : Sys) (bus : BusTag) (a : Action) (r : Nat) : Sys :=
  { s with
    registry := Function.update s.registry bus
      (Function.update (s.registry bus) a ((s.registry bus a).remove r)) }

/-- The loop of the constructor over a list of action kinds. -/
def Sys.addAll (s : Sys) (bus : BusTag) (r : Nat) : List Action → Option Sys
  | [] => some s
  | a :: rest => (s.add bus a r).bind fun s1 => s1.addAll bus r rest

/-- The loop of the destructor over a list of action kinds. -/
def Sys.removeAll (s : Sys) (bus : BusTag) (r : Nat) : List Action → Sys
  | [] => s
  | a :: rest => (s.remove bus a r).removeAll bus r rest

/-- The constructor `ActionReceiverOnBus()`: register `this` for every kind of
the `ActionList`. -/
def ActionReceiverOnBus.construct (w : ActionReceiverOnBus) (s : Sys) : Option Sys :=
  s.addAll w.bus w.this w.actions

/-- The destructor `~ActionReceiverOnBus()`: remove `this` from the registry of
every kind of the `ActionList`. -/
def ActionReceiverOnBus.destroy (w : ActionReceiverOnBus) (s : Sys) : Sys :=
  s.removeAll w.bus w.this w.actions

/-- The operations a program performs on the bus framework. -/
inductive Op where
  | send (bus : BusTag) (action_data : ActionData)
  | send_to_bus (tags : BusTags) (a : Action) (args : List Int)
  | construct (w : ActionReceiverOnBus)
  | destroy (w : ActionReceiverOnBus)
  | drain (bus : BusTag)
  deriving Repr

/-- The framework state together with the objects of the program: the
`ActionReceiverOnBus` objects between construction and destruction, oldest
first, and the handler invocations observed so far. -/
structure World where
  sys : Sys
  alive : List ActionReceiverOnBus
  trace : List Call

/-- The world at program start. -/
def World.init (capacity : BusTag → Nat) : World :=
  { sys := Sys.init capacity, alive := [], trace := [] }

/-- One operation.  The object lifetime rules of the language are part of it: an
object is constructed only at an address no living object occupies, and only a
living object is destroyed; `none` is a violation of these rules or a failed
assertion. -/
def World.step (w : World) : Op → Option World
  | .send bus d => some { w with sys := ActionBus.send bus d w.sys }
  | .send_to_bus tags a args => some { w with sys := send_to_bus tags a args w.sys }
  | .construct o =>
      if o.this ∈ w.alive.map ActionReceiverOnBus.this then none
      else (o.construct w.sys).map fun s => { w with sys := s, alive := w.alive ++ [o] }
  | .destroy o =>
      if o ∈ w.alive then
        some { w with sys := o.destroy w.sys, alive := w.alive.erase o }
      else none
  | .drain bus =>
      some { w with
        sys := (ActionBus.drain bus w.sys).1
        trace := w.trace ++ (ActionBus.drain bus w.sys).2 }

/-- A sequence of operations, stopping at the first one that fails. -/
def World.run (w : World) : List Op → Option World
  | [] => some w
  | op :: ops => (w.step op).bind fun w1 => w1.run ops

/-- The receiver `r` has a living wrapper registered on `bus` for kind `a`. -/
def World.registered (w : World) (r : Nat) (bus : BusTag) (a : Action) : Prop :=
  ∃ o ∈ w.alive, o.this = r ∧ o.bus = bus ∧ a ∈ o.actions

/-- The addresses of the living wrappers on `bus` that declare kind `a`, oldest
first. -/
def World.declared (w : World) (bus : BusTag) (a : Action) : List Nat :=
  (w.alive.filter fun o => decide (o.bus = bus ∧ a ∈ o.actions)).map
    ActionReceiverOnBus.this

/-- The closure that `ActionBus<bus>::send(action_data)` pushes. -/
def ActionBus.dispatch (bus : BusTag) (action_data : ActionData) : Dispatch :=
  { bus := bus, action := action_data.action, args := action_data.args }

/-- Several pushes in a row. -/
def ActionQueue.pushAll (q : ActionQueue) (ds : List Dispatch) : ActionQueue :=
  ds.foldl ActionQueue.push q

/-- The dispatches an operation hands to the queue of `bus`, in order. -/
def Op.sentOn (bus : BusTag) : Op → List Dispatch
  | .send b d => if b = bus then [ActionBus.dispatch bus d] else []
  | .send_to_bus tags a args =>
      (tags.flatten.filter fun b => decide (b = bus)).map fun _ =>
        ActionBus.dispatch bus (a.data args)
  | _ => []

/-- The invariant of the worlds a program can reach: living wrappers have
distinct addresses, every registry lists exactly the living wrappers that
declare its (bus, kind), oldest first, and every queue holds only closures made
by the `send` of its own bus. -/
structure World.Inv (w : World) : Prop where
  addr : (w.alive.map ActionReceiverOnBus.this).Nodup
  reg : ∀ B K, (w.sys.registry B K).receivers = w.declared B K
  routed : ∀ B, ∀ d ∈ (w.sys.queue B).pending, d.bus = B

/-! ### Sample data

Two action kinds, two receivers on the logic bus and queues of capacity two,
used to instantiate the general statements. -/

/-- A kind with one argument. -/
def exK : Action := { tag := 0, argTypes := [0] }

/-- A kind with two arguments. -/
def exK2 : Action := { tag := 1, argTypes := [0, 0] }

/-- A receiver on the logic bus for both kinds. -/
def exA : ActionReceiverOnBus := { this := 100, bus := .LogicBus, actions := [exK, exK2] }

/-- A receiver on the logic bus for the first kind only. -/
def exB : ActionReceiverOnBus := { this := 200, bus := .LogicBus, actions := [exK] }

/-- Every queue holds at most two dispatches. -/
def exCap : BusTag → Nat := fun _ => 2

/-- The history that constructs `exA` and then `exB`. -/
def exHistAB : List Op := [.construct exA, .construct exB]

/-- The world after `exHistAB`. -/
def exWorldAB : World :=
  ((World.init exCap).run exHistAB).getD (World.init exCap)

/-- Whether a receiver is registered can be computed from the living wrappers. -/
instance World.decidableRegistered (w : World) (r : Nat) (bus : BusTag) (a : Action) :
    Decidable (w.registered r bus a) :=
  inferInstanceAs (Decidable (∃ o ∈ w.alive, o.this = r ∧ o.bus = bus ∧ a ∈ o.actions))

/-- The history that fills the logic queue with two dispatches of kind `exK`
while no receiver exists. -/
def exHistFull : List Op :=
  [.send .LogicBus (exK.data [1]), .send .LogicBus (exK.data [2])]

/-- The world after `exHistFull`: the logic queue is full. -/
def exWorldFull : World :=
  ((World.init exCap).run exHistFull).getD (World.init exCap)

/-- The world after `exWorldFull`, one more send of `exK` with argument 7 and
the construction of `exA`. -/
def exWorldLate : World :=
  (exWorldFull.run [.send .LogicBus (exK.data [7]), .construct exA]).getD exWorldFull

/-- The history that constructs `exA` and fills the logic queue with two
dispatches of kind `exK2`. -/
def exHistBusy : List Op :=
  [.construct exA, .send .LogicBus (exK2.data [1, 1]), .send .LogicBus (exK2.data [2, 2])]

/-- The world after `exHistBusy`. -/
def exWorldBusy : World :=
  ((World.init exCap).run exHistBusy).getD (World.init exCap)

/-- The world after `exWorldBusy` and one more send of `exK` with argument 7. -/
def exWorldBusy2 : World :=
  (exWorldBusy.run [.send .LogicBus (exK.data [7])]).getD exWorldBusy

/-- The history in which `exA` is constructed, a dispatch of kind `exK` is
sent, and `exA` is destroyed before any drain. -/
def exHistGone : List Op :=
  [.construct exA, .send .LogicBus (exK.data [7]), .destroy exA]

/-- The world after `exHistGone`. -/
def exWorldGone : World :=
  ((World.init exCap).run exHistGone).getD (World.init exCap)

/-- The world after `World.init exCap`, one send of `exK` with argument 7 and
the construction of `exA`. -/
def exWorldFresh : World :=
  ((World.init exCap).run [.send .LogicBus (exK.data [7]), .construct exA]).getD
    (World.init exCap)

/-- The world in which the logic queue is full and `send_to_bus` is called for
the logic bus and, nested, the graphics bus. -/
def exSysFanout : Sys :=
  send_to_bus (.tag .LogicBus (.nest (.tag .GraphicsBus .nil) .nil)) exK [7] exWorldFull.sys

end otto.itc

namespace otto.core.props

/-- The function `std::clamp(x, lo, hi)` that "clamp to [min, max]" refers to. -/
def clamp (x lo hi : ℚ) : ℚ :=
  if x < lo then lo else if hi < x then hi else x

/-- The rounding of `std::round`: the nearest integer, halfway cases away from
zero. -/
def roundHalfAway (q : ℚ) : ℤ :=
  if 0 ≤ q then ⌊q + 1 / 2⌋ else ⌈q - 1 / 2⌉

/-- A rounding policy rounds to a nearest integer. -/
def IsNearest (rnd : ℚ → ℤ) : Prop :=
  ∀ q : ℚ, |q - rnd q| ≤ 1 / 2

/-- The value `v` is a multiple of `s` and no multiple of `s` is nearer to `x`. -/
def IsNearestMultiple (s x v : ℚ) : Prop :=
  ∃ k : ℤ, v = k * s ∧ ∀ j : ℤ, |x - v| ≤ |x - j * s|

/-- A property declaration as the source writes it,
`Sender::Prop<tag, T> name = {sender, default, limits(min, max), step_size(step)}`:
the tag, the default value, the inclusive range, the step size if any, and the
buses the sender is bound to. -/
structure Decl where
  tag : Nat
  default : ℚ
  min : ℚ
  max : ℚ
  step : Option ℚ
  buses : List otto.itc.BusTag

/-- Modelled from the spec: the property type of `core/props` (not part of the
sources at hand).  A property is its declaration, its rounding policy
("documented per property") and its current value. -/
structure Property where
  decl : Decl
  round : ℚ → ℤ
  value : ℚ

/-- Modelled from the spec: the change action a property sends, carrying the
value and the property identity, fanned out to the buses the property is bound
to. -/
structure Change where
  property : Nat
  value : ℚ
  buses : List otto.itc.BusTag
  deriving DecidableEq

/-- Modelled from the spec: construction of a property from its declaration; a
degenerate range (min > max) is rejected. -/
def Property.make (d : Decl) (rnd : ℚ → ℤ) : Option Property :=
  if d.max < d.min then none else some { decl := d, round := rnd, value := d.default }

/-- Modelled from the spec: reading a property is local. -/
def Property.get (p : Property) : ℚ :=
  p.value

/-- The integer `k` kept between `lo` and `hi`. -/
def keepBetween (k lo hi : ℤ) : ℤ :=
  if k < lo then lo else if hi < k then hi else k

/-- Modelled from the spec: the effective value of an assignment.  An
out-of-range value is clamped to the range (spec 8).  An in-range value of a
property with a step is rounded to the nearest step multiple that the rounding
policy chooses, among the step multiples that lie within the range (spec 4.6
and 8, with the invariant of spec 3 that the stored value lies within the
declared range). -/
def Property.effective (p : Property) (x : ℚ) : ℚ :=
  if x < p.decl.min ∨ p.decl.max < x then clamp x p.decl.min p.decl.max
  else
    match p.decl.step with
    | none => x
    | some s =>
        (keepBetween (p.round (x / s)) ⌈p.decl.min / s⌉ ⌊p.decl.max / s⌋ : ℚ) * s

/-- Modelled from the spec: `set(new_value)`.  If the effective value differs
from the current one it is stored and one change action is sent; otherwise
nothing happens. -/
def Property.set (p : Property) (x : ℚ) : Property × List Change :=
  if p.effective x = p.value then (p, [])
  else
    ({ p with value := p.effective x },
      [{ property := p.decl.tag, value := p.effective x, buses := p.decl.buses }])

/-- The state after a sequence of assignments. -/
def Property.setAll (p : Property) (xs : List ℚ) : Property :=
  xs.foldl (fun q x => (q.set x).1) p

/-- The current value is what an assignment of it would store. -/
def Property.Settled (p : Property) : Prop :=
  p.effective p.value = p.value

end otto.core.props

namespace otto.engines.chorus

open otto.core.props

/-- The property `Props::delay = {sender, 0.8, limits(0, 1), step_size(0.01)}`. -/
def Props.delay : Decl :=
  { tag := 0, default := 0.8, min := 0, max := 1, step := some 0.01,
    buses := [.AudioBus, .GraphicsBus] }

/-- The property `Props::rate = {sender, 0, limits(0, 2), step_size(0.02)}`. -/
def Props.rate : Decl :=
  { tag := 1, default := 0, min := 0, max := 2, step := some 0.02,
    buses := [.AudioBus, .GraphicsBus] }

/-- The property
`Props::feedback = {sender, 0, limits(-0.99, 0.99), step_size(0.02)}`. -/
def Props.feedback : Decl :=
  { tag := 2, default := 0, min := -0.99, max := 0.99, step := some 0.02,
    buses := [.AudioBus, .GraphicsBus] }

/-- The property `Props::depth = {sender, 0.5, limits(0, 1), step_size(0.01)}`. -/
def Props.depth : Decl :=
  { tag := 3, default := 0.5, min := 0, max := 1, step := some 0.01,
    buses := [.AudioBus, .GraphicsBus] }

/-- The property `feedback` in its initial state, with the rounding of
`std::round`. -/
def exFeedback : Property :=
  { decl := Props.feedback, round := roundHalfAway, value := 0 }

/-- The property `delay` in its initial state, with the rounding of
`std::round`. -/
def exDelay : Property :=
  { decl := Props.delay, round := roundHalfAway, value := 0.8 }

/-- A property declaration whose default value 0.805 is not a multiple of its
step 0.01. -/
def exOffGrid : Decl :=
  { tag := 9, default := 0.805, min := 0, max := 1, step := some 0.01, buses := [] }

/-- The properties of `chorus::Props`, in the order of `DECL_REFLECTION`. -/
def Props.all : List Decl :=
  [Props.delay, Props.depth, Props.feedback, Props.rate]

end otto.engines.chorus

namespace otto.services

open otto.core.props

/-- The property `UIManager::State::octave = {0, core::props::limits(-4, 4)}`: a
`Property<int>` with a range, no step size and no sender. -/
def UIManager.State.octave : Decl :=
  { tag := 4, default := 0, min := -4, max := 4, step := none, buses := [] }

/-- The bounded properties declared in the sources: those of `chorus::Props`
and `UIManager::State::octave`. -/
def boundedProperties : List Decl :=
  otto.engines.chorus.Props.all ++ [UIManager.State.octave]

end otto.services

namespace otto.dsp

/-! ### Sample playback (`src/util/dsp/sample.cpp`)

`int` values are integers, and every `int` subtraction, negation, product and
increment is computed modulo 2^32 (`wrap32`), which is what the usual targets
do where the language leaves signed overflow undefined.  The setters perform no
arithmetic.  `float` values are rationals; the sign test of the stride and
`std::modf` are exact, and the rounding `float` operations of `advance` are the
parameters `FloatOps`. -/

/-- The result of a 32-bit `int` computation: the exact result modulo 2^32, in
the range from -2^31 to 2^31 - 1. -/
def wrap32 (x : Int) : Int :=
  (x + 2147483648) % 4294967296 - 2147483648

/-- The function `std::clamp(v, lo, hi)` on `int`. -/
def clamp (v lo hi : Int) : Int :=
  if v < lo then lo else if hi < v then hi else v

/-- The default member initialisers of `Sample`, which `sample.hpp` declares
and `sample.cpp` does not show; they are parameters of the construction. -/
structure Defaults where
  start_point_ : Int
  fade_in_time_ : Int
  fade_out_time_ : Int
  playback_speed_ : ℚ

/-- The data members of `Sample`. -/
structure Sample where
  audio_data_ : List ℚ
  start_point_ : Int
  end_point_ : Int
  fade_in_time_ : Int
  fade_out_time_ : Int
  playback_speed_ : ℚ
  speed_modifier : ℚ
  deriving DecidableEq

/-- The constructor `Sample::Sample(audio_data, speed_modifier)`: it sets
`audio_data_`, `end_point_ = audio_data_.size()` and `speed_modifier`. -/
def Sample.construct (dflt : Defaults) (audio_data : List ℚ) (speed_modifier : ℚ) : Sample :=
  { audio_data_ := audio_data
    start_point_ := dflt.start_point_
    end_point_ := audio_data.length
    fade_in_time_ := dflt.fade_in_time_
    fade_out_time_ := dflt.fade_out_time_
    playback_speed_ := dflt.playback_speed_
    speed_modifier := speed_modifier }

/-- The function `Sample::size()`. -/
def Sample.size (s : Sample) : Int :=
  wrap32 (s.end_point_ - s.start_point_)

/-- The getter `Sample::start_point()`. -/
def Sample.start_point (s : Sample) : Int :=
  s.start_point_

/-- The getter `Sample::end_point()`. -/
def Sample.end_point (s : Sample) : Int :=
  s.end_point_

/-- The getter `Sample::fade_in_time()`. -/
def Sample.fade_in_time (s : Sample) : Int :=
  s.fade_in_time_

/-- The getter `Sample::fade_out_time()`. -/
def Sample.fade_out_time (s : Sample) : Int :=
  s.fade_out_time_

/-- The getter `Sample::playback_speed()`. -/
def Sample.playback_speed (s : Sample) : ℚ :=
  s.playback_speed_

/-- The two mutually recursive setters. -/
inductive Setter where
  | start_point
  | end_point
  deriving DecidableEq, Repr

/-- The setters `Sample::start_point(int val)` and `Sample::end_point(int val)`,
which call each other, with a bound on the depth of nested calls.  The result
is the sample after the call together with the chain of nested setter calls,
outermost first; `none` means that the bound was reached. -/
def Sample.set_fuel : Nat → Setter → Int → Sample → Option (Sample × List Setter)
  | 0, _, _, _ => none
  | fuel + 1, .start_point, val, s =>
      if s.end_point_ < val then
        (Sample.set_fuel fuel .end_point val { s with start_point_ := val }).map
          fun r => (r.1, Setter.start_point :: r.2)
      else some ({ s with start_point_ := val }, [Setter.start_point])
  | fuel + 1, .end_point, val, s =>
      if s.start_point > clamp val 0 s.audio_data_.length then
        (Sample.set_fuel fuel .start_point (clamp val 0 s.audio_data_.length)
          { s with end_point_ := clamp val 0 s.audio_data_.length }).map
          fun r => (r.1, Setter.end_point :: r.2)
      else some ({ s with end_point_ := clamp val 0 s.audio_data_.length }, [Setter.end_point])

/-- The setter `Sample::start_point(int val)`; three nested calls always
suffice. -/
def Sample.set_start_point (val : Int) (s : Sample) : Sample :=
  match s.set_fuel 3 .start_point val with
  | some r => r.1
  | none => s

/-- The setter `Sample::end_point(int val)`. -/
def Sample.set_end_point (val : Int) (s : Sample) : Sample :=
  match s.set_fuel 3 .end_point val with
  | some r => r.1
  | none => s

/-- The setter `Sample::fade_in_time(int val)`. -/
def Sample.set_fade_in_time (val : Int) (s : Sample) : Sample :=
  { s with fade_in_time_ := val }

/-- The setter `Sample::fade_out_time(int val)`. -/
def Sample.set_fade_out_time (val : Int) (s : Sample) : Sample :=
  { s with fade_out_time_ := val }

/-- The setter `Sample::playback_speed(float val)`. -/
def Sample.set_playback_speed (val : ℚ) (s : Sample) : Sample :=
  { s with playback_speed_ := val }

/-- A call of one of the setters of `Sample`. -/
inductive SampleOp where
  | start_point (val : Int)
  | end_point (val : Int)
  | fade_in_time (val : Int)
  | fade_out_time (val : Int)
  | playback_speed (val : ℚ)

/-- The sample after one setter call. -/
def Sample.apply (s : Sample) : SampleOp → Sample
  | .start_point val => s.set_start_point val
  | .end_point val => s.set_end_point val
  | .fade_in_time val => s.set_fade_in_time val
  | .fade_out_time val => s.set_fade_out_time val
  | .playback_speed val => s.set_playback_speed val

/-- The sample after a sequence of setter calls. -/
def Sample.run (s : Sample) (ops : List SampleOp) : Sample :=
  ops.foldl Sample.apply s

/-- The bounds predicate of a sample: `start_point <= end_point` and
`0 <= end_point <= audio_data.size()`. -/
def Sample.Bounds (s : Sample) : Prop :=
  s.start_point_ ≤ s.end_point_ ∧ 0 ≤ s.end_point_ ∧ s.end_point_ ≤ s.audio_data_.length

/-- The data members of `Sample::iterator`: the sample it points to (`none` is
`nullptr`), the index and the fractional position. -/
structure Sample.iterator where
  sample_ : Option Sample
  index_ : Int
  error_ : ℚ
  deriving DecidableEq

/-- The function `Sample::begin()`; `error0` is the default member initialiser
of `error_`, declared in `sample.hpp`. -/
def Sample.begin (s : Sample) (error0 : ℚ) : Sample.iterator :=
  if s.playback_speed_ * s.speed_modifier < 0 then
    { sample_ := some s, index_ := wrap32 (s.end_point - 1), error_ := error0 }
  else { sample_ := some s, index_ := s.start_point, error_ := error0 }

/-- The function `Sample::end()`. -/
def Sample.«end» (s : Sample) (error0 : ℚ) : Sample.iterator :=
  if s.playback_speed_ * s.speed_modifier < 0 then
    { sample_ := some s, index_ := wrap32 (s.start_point - 1), error_ := error0 }
  else { sample_ := some s, index_ := s.end_point, error_ := error0 }

/-- The function `Sample::iterator::index()`. -/
def Sample.iterator.index (it : Sample.iterator) : Int :=
  it.index_

/-- The function `Sample::iterator::playback_speed()`. -/
def Sample.iterator.playback_speed (it : Sample.iterator) : ℚ :=
  match it.sample_ with
  | none => 0
  | some s => s.playback_speed_ * s.speed_modifier

/-- The function `Sample::iterator::start_point()`. -/
def Sample.iterator.start_point (it : Sample.iterator) : Int :=
  match it.sample_ with
  | none => 0
  | some s =>
      if it.playback_speed < 0 then wrap32 (-(wrap32 (s.end_point - 1))) else s.start_point

/-- The function `Sample::iterator::end_point()`. -/
def Sample.iterator.end_point (it : Sample.iterator) : Int :=
  match it.sample_ with
  | none => 0
  | some s =>
      if it.playback_speed < 0 then wrap32 (-(wrap32 (s.start_point - 1))) else s.end_point

/-- The function `Sample::iterator::signed_index()`. -/
def Sample.iterator.signed_index (it : Sample.iterator) : Int :=
  match it.sample_ with
  | none => 0
  | some _ => if it.playback_speed < 0 then wrap32 (-it.index_) else it.index_

/-- The function `Sample::iterator::fade_in_time()`. -/
def Sample.iterator.fade_in_time (it : Sample.iterator) : Int :=
  match it.sample_ with
  | none => 0
  | some s => if it.playback_speed < 0 then s.fade_out_time else s.fade_in_time

/-- The function `Sample::iterator::fade_out_time()`. -/
def Sample.iterator.fade_out_time (it : Sample.iterator) : Int :=
  match it.sample_ with
  | none => 0
  | some s => if it.playback_speed < 0 then s.fade_in_time else s.fade_out_time

/-- The function `Sample::iterator::sign()`. -/
def Sample.iterator.sign (it : Sample.iterator) : Int :=
  if it.playback_speed < 0 then -1 else 1

/-- The integral part that `std::modf` stores: truncation toward zero. -/
def modf_int (t : ℚ) : Int :=
  if 0 ≤ t then ⌊t⌋ else ⌈t⌉

/-- The rounding `float` operations that `advance` uses, as parameters: the
conversion of an integer to `float`, the conversion of a `float` to `int`, and
the `float` sum and product. -/
structure FloatOps where
  ofInt : Int → ℚ
  toInt : ℚ → Int
  add : ℚ → ℚ → ℚ
  mul : ℚ → ℚ → ℚ

/-- The `float` operations without rounding. -/
def FloatOps.exact : FloatOps :=
  { ofInt := fun i => (i : ℚ), toInt := modf_int, add := fun x y => x + y,
    mul := fun x y => x * y }

/-- The first statements of `advance(d)`:
`error_ = std::modf(error_ + playback_speed() * d, &int_part)` and the
adjustment `int_part -= 1; error_ += 1` when `error_ < 0`.  The result is
`int_part` and the new `error_`. -/
def Sample.iterator.whole_steps (it : Sample.iterator) (F : FloatOps) (d : Int) : ℚ × ℚ :=
  if F.add it.error_ (F.mul it.playback_speed (F.ofInt d)) -
      modf_int (F.add it.error_ (F.mul it.playback_speed (F.ofInt d))) < 0 then
    (F.add (modf_int (F.add it.error_ (F.mul it.playback_speed (F.ofInt d)))) (-1),
      F.add (F.add it.error_ (F.mul it.playback_speed (F.ofInt d)) -
        modf_int (F.add it.error_ (F.mul it.playback_speed (F.ofInt d)))) 1)
  else
    ((modf_int (F.add it.error_ (F.mul it.playback_speed (F.ofInt d))) : ℚ),
      F.add it.error_ (F.mul it.playback_speed (F.ofInt d)) -
        modf_int (F.add it.error_ (F.mul it.playback_speed (F.ofInt d))))

/-- The loop `for (int i = 0; i != std::abs(int_part); i++) index_ += dir` of
`advance`, where `bound` is `std::abs(int_part)` and `dir` is
`int_part / std::abs(int_part)`: the `int` counter is compared with the `float`
bound and incremented as an `int`, the index is incremented in `float`.  The
first argument bounds the number of tests of the loop condition; `none` means
that the loop has not ended within it. -/
def Sample.iterator.step_loop (F : FloatOps) (bound dir : ℚ) : Nat → Int → Int → Option Int
  | 0, _, _ => none
  | fuel + 1, i, index =>
      if F.ofInt i = bound then some index
      else
        Sample.iterator.step_loop F bound dir fuel (wrap32 (i + 1))
          (F.toInt (F.add (F.ofInt index) dir))

/-- The function `Sample::iterator::advance(d)`; `none` means that its loop has
not ended within `fuel` tests of the loop condition. -/
def Sample.iterator.advance (it : Sample.iterator) (F : FloatOps) (fuel : Nat) (d : Int) :
    Option Sample.iterator :=
  (Sample.iterator.step_loop F |(it.whole_steps F d).1|
      ((it.whole_steps F d).1 / |(it.whole_steps F d).1|) fuel 0 it.index_).map fun moved =>
    { it with
      error_ := (it.whole_steps F d).2
      index_ :=
        clamp moved
          (min (wrap32 (it.sign * it.start_point)) (wrap32 (it.sign * it.end_point)))
          (max (wrap32 (it.sign * it.start_point)) (wrap32 (it.sign * it.end_point))) }

/-- The outcome of `Sample::iterator::dereference()`: the early return of
`0.f`, a failure of `OTTO_ASSERT`, or the sample value read from `audio_data_`
and scaled by the fades. -/
inductive Deref where
  | silence
  | assert_failed
  | value (res : ℚ)
  deriving DecidableEq

/-- The early-return condition of `dereference` past the null check. -/
def Sample.iterator.guard (it : Sample.iterator) : Prop :=
  it.start_point = it.end_point ∨ it.signed_index < it.start_point ∨
    it.signed_index ≥ it.end_point

/-- The early-return condition can be computed. -/
instance Sample.iterator.decidableGuard (it : Sample.iterator) : Decidable it.guard :=
  inferInstanceAs (Decidable (_ ∨ _ ∨ _))

/-- The function `Sample::iterator::dereference()`. -/
def Sample.iterator.dereference (it : Sample.iterator) : Deref :=
  match it.sample_ with
  | none => .silence
  | some s =>
      if it.guard then .silence
      else if ¬ (it.index_ ≥ 0 ∧ it.index_ < s.audio_data_.length) then .assert_failed
      else
        let res := s.audio_data_.getD it.index_.toNat 0
        let res1 :=
          if it.fade_in_time > 0 ∧
              ((wrap32 (it.signed_index - it.start_point) : Int) : ℚ) / it.fade_in_time < 1 then
            res * (((wrap32 (it.signed_index - it.start_point) : Int) : ℚ) / it.fade_in_time)
          else res
        let res2 :=
          if it.fade_out_time > 0 ∧
              ((wrap32 (it.end_point - it.signed_index) : Int) : ℚ) / it.fade_out_time < 1 then
            res1 * (((wrap32 (it.end_point - it.signed_index) : Int) : ℚ) / it.fade_out_time)
          else res1
        .value res2

/-- The function `Sample::iterator::equal(rhs)`. -/
def Sample.iterator.equal (it rhs : Sample.iterator) : Bool :=
  decide (it.index_ = rhs.index_ ∧ (it.signed_index = it.end_point ∨ it.error_ = rhs.error_))

/-- The function `Sample::iterator::operator-(rhs)`. -/
def Sample.iterator.operator_minus (it rhs : Sample.iterator) : Int :=
  wrap32 (it.signed_index - rhs.signed_index)

/-- Default member initialisers used in the examples: all zero, playback speed
one. -/
def exDefaults : Defaults :=
  { start_point_ := 0, fade_in_time_ := 0, fade_out_time_ := 0, playback_speed_ := 1 }

/-- A sample over three values, played forward. -/
def exSample : Sample :=
  Sample.construct exDefaults [1, 2, 3] 1

/-- A sample over three values after `playback_speed(1)` and
`start_point(-5)`. -/
def exSampleNeg (dflt : Defaults) : Sample :=
  (Sample.construct dflt [1, 2, 3] 1).run [.playback_speed 1, .start_point (-5)]

/-- A sample over three values after `start_point(-2147483648)`. -/
def exSampleMin (dflt : Defaults) : Sample :=
  (Sample.construct dflt [1, 2, 3] 1).run [.start_point (-2147483648)]

end otto.dsp

namespace otto.itc

/-! ## Registry bookkeeping -/

theorem Sys.add_eq_some {s s' : Sys} {bus : BusTag} {a : Action} {r : Nat}
    (h : s.add bus a r = some s') :
    r ∉ (s.registry bus a).receivers ∧ s'.queue = s.queue ∧
      ∀ B K, (s'.registry B K).receivers =
        if B = bus ∧ K = a then (s.registry B K).receivers ++ [r]
        else (s.registry B K).receivers := by
  unfold Sys.add ActionReceiverRegistry.add at h
  by_cases hm : r ∈ (s.registry bus a).receivers
  · simp [hm] at h
  · simp only [hm, if_false, Option.map_some', Option.some.injEq] at h
    subst h
    refine ⟨hm, rfl, ?_⟩
    intro B K
    by_cases hB : B = bus
    · subst hB
      by_cases hK : K = a
      · subst hK
        simp
      · simp [Function.update_apply, hK]
    · simp [Function.update_apply, hB]

theorem Sys.addAll_eq_some {bus : BusTag} {r : Nat} :
    ∀ {acts : List Action} {s s' : Sys}, s.addAll bus r acts = some s' →
      (∀ K ∈ acts, r ∉ (s.registry bus K).receivers) ∧ s'.queue = s.queue ∧
        ∀ B K, (s'.registry B K).receivers =
          if B = bus ∧ K ∈ acts then (s.registry B K).receivers ++ [r]
          else (s.registry B K).receivers := by
  intro acts
  induction acts with
  | nil =>
      intro s s' h
      simp only [Sys.addAll, Option.some.injEq] at h
      subst h
      simp
  | cons a rest ih =>
      intro s s' h
      simp only [Sys.addAll] at h
      cases h1 : s.add bus a r with
      | none => simp [h1] at h
      | some s1 =>
          rw [h1] at h
          simp only [Option.some_bind] at h
          obtain ⟨hfresh, hq1, hreg1⟩ := Sys.add_eq_some h1
          obtain ⟨hrest, hq, hreg⟩ := ih h
          have hnot : a ∉ rest := by
            intro ha
            have := hrest a ha
            rw [hreg1 bus a] at this
            simp at this
          refine ⟨?_, by rw [hq, hq1], ?_⟩
          · intro K hK
            rcases List.mem_cons.1 hK with rfl | hK
            · exact hfresh
            · have := hrest K hK
              rw [hreg1 bus K] at this
              by_cases hKa : K = a
              · subst hKa; exact hfresh
              · simpa [hKa] using this
          · intro B K
            rw [hreg B K, hreg1 B K]
            by_cases hB : B = bus
            · by_cases hKa : K = a
              · subst hKa
                simp [hB, hnot]
              · simp [hB, hKa]
            · simp [hB]

theorem Sys.addAll_isSome {bus : BusTag} {r : Nat} :
    ∀ {acts : List Action} {s : Sys}, acts.Nodup →
      (∀ K ∈ acts, r ∉ (s.registry bus K).receivers) →
      ∃ s', s.addAll bus r acts = some s' := by
  intro acts
  induction acts with
  | nil => intro s _ _; exact ⟨s, rfl⟩
  | cons a rest ih =>
      intro s hnd hfresh
      have ha : r ∉ (s.registry bus a).receivers := hfresh a (List.mem_cons_self _ _)
      have h1 : s.add bus a r = some
          { s with
            registry := Function.update s.registry bus
              (Function.update (s.registry bus) a
                { receivers := (s.registry bus a).receivers ++ [r] }) } := by
        simp [Sys.add, ActionReceiverRegistry.add, ha]
      obtain ⟨_, _, hreg1⟩ := Sys.add_eq_some h1
      have hnd2 := List.nodup_cons.1 hnd
      simp only [Sys.addAll, h1, Option.some_bind]
      apply ih hnd2.2
      intro K hK
      rw [hreg1 bus K]
      have hKa : K ≠ a := fun e => hnd2.1 (e ▸ hK)
      simpa [hKa] using hfresh K (List.mem_cons_of_mem _ hK)

theorem Sys.removeAll_spec {bus : BusTag} {r : Nat} :
    ∀ (acts : List Action) (s : Sys),
      (∀ K, (s.registry bus K).receivers.Nodup) →
      (s.removeAll bus r acts).queue = s.queue ∧
        ∀ B K, ((s.removeAll bus r acts).registry B K).receivers =
          if B = bus ∧ K ∈ acts then (s.registry B K).receivers.filter (fun x => x ≠ r)
          else (s.registry B K).receivers := by
  intro acts
  induction acts with
  | nil => intro s _; simp [Sys.removeAll]
  | cons a rest ih =>
      intro s hnd
      have hreg1 : ∀ B K, ((s.remove bus a r).registry B K).receivers =
          if B = bus ∧ K = a then (s.registry B K).receivers.filter (fun x => x ≠ r)
          else (s.registry B K).receivers := by
        intro B K
        by_cases hB : B = bus
        · subst hB
          by_cases hK : K = a
          · subst hK
            simp only [Sys.remove, ActionReceiverRegistry.remove, Function.update_same,
              (hnd K).erase_eq_filter, and_self, if_true]
            apply List.filter_congr
            intro x _
            by_cases hx : x = r <;> simp [hx]
          · simp [Sys.remove, Function.update_apply, hK]
        · simp [Sys.remove, Function.update_apply, hB]
      have hnd1 : ∀ K, ((s.remove bus a r).registry bus K).receivers.Nodup := by
        intro K
        rw [hreg1 bus K]
        split_ifs
        · exact (hnd K).filter _
        · exact hnd K
      obtain ⟨hq, hreg⟩ := ih (s.remove bus a r) hnd1
      refine ⟨by rw [Sys.removeAll, hq]; rfl, ?_⟩
      intro B K
      rw [Sys.removeAll, hreg B K, hreg1 B K]
      by_cases hB : B = bus
      · by_cases hKa : K = a
        · subst hKa
          by_cases hKr : K ∈ rest
          · simp [hB, hKr, List.filter_filter]
          · simp [hB, hKr]
        · simp [hB, hKa]
      · simp [hB]

/-! ## Queue bookkeeping -/

theorem ActionQueue.push_capacity (q : ActionQueue) (d : Dispatch) :
    (q.push d).capacity = q.capacity := by
  unfold ActionQueue.push
  split_ifs <;> rfl

theorem ActionQueue.push_pending (q : ActionQueue) (d : Dispatch) :
    (q.push d).pending = q.pending ++ [d].take (q.capacity - q.pending.length) := by
  unfold ActionQueue.push
  split_ifs with h
  · have : q.capacity - q.pending.length = (q.capacity - q.pending.length - 1) + 1 := by omega
    rw [this]
    simp
  · have : q.capacity - q.pending.length = 0 := by omega
    simp [this]

theorem ActionQueue.push_overflow (q : ActionQueue) (d : Dispatch) :
    (q.push d).overflow = q.overflow + (1 - (q.capacity - q.pending.length)) := by
  unfold ActionQueue.push
  split_ifs with h
  · have : 1 - (q.capacity - q.pending.length) = 0 := by omega
    simp [this]
  · have : 1 - (q.capacity - q.pending.length) = 1 := by omega
    simp [this]

theorem ActionQueue.pushAll_capacity (ds : List Dispatch) :
    ∀ q : ActionQueue, (q.pushAll ds).capacity = q.capacity := by
  induction ds with
  | nil => intro q; rfl
  | cons d ds ih =>
      intro q
      simp only [ActionQueue.pushAll, List.foldl_cons] at ih ⊢
      rw [ih, ActionQueue.push_capacity]

theorem ActionQueue.pushAll_pending (ds : List Dispatch) :
    ∀ q : ActionQueue,
      (q.pushAll ds).pending = q.pending ++ ds.take (q.capacity - q.pending.length) := by
  induction ds with
  | nil => intro q; simp [ActionQueue.pushAll]
  | cons d ds ih =>
      intro q
      simp only [ActionQueue.pushAll, List.foldl_cons] at ih ⊢
      rw [ih, ActionQueue.push_capacity, ActionQueue.push_pending]
      by_cases h : q.pending.length < q.capacity
      · obtain ⟨k, hk⟩ : ∃ k, q.capacity - q.pending.length = k + 1 :=
          ⟨q.capacity - q.pending.length - 1, by omega⟩
        have hk2 : q.capacity - (q.pending.length + 1) = k := by omega
        simp [hk, hk2]
      · have e : q.capacity - q.pending.length = 0 := by omega
        simp [e]

theorem ActionQueue.pushAll_overflow (ds : List Dispatch) :
    ∀ q : ActionQueue,
      (q.pushAll ds).overflow =
        q.overflow + (ds.length - (q.capacity - q.pending.length)) := by
  induction ds with
  | nil => intro q; simp [ActionQueue.pushAll]
  | cons d ds ih =>
      intro q
      simp only [ActionQueue.pushAll, List.foldl_cons] at ih ⊢
      rw [ih, ActionQueue.push_capacity, ActionQueue.push_overflow, ActionQueue.push_pending]
      by_cases h : q.pending.length < q.capacity
      · obtain ⟨k, hk⟩ : ∃ k, q.capacity - q.pending.length = k + 1 :=
          ⟨q.capacity - q.pending.length - 1, by omega⟩
        have hk2 : q.capacity - (q.pending.length + 1) = k := by omega
        simp [hk, hk2]
      · have e : q.capacity - q.pending.length = 0 := by omega
        simp [e]
        omega

theorem ActionQueue.pushAll_append (q : ActionQueue) (xs ys : List Dispatch) :
    q.pushAll (xs ++ ys) = (q.pushAll xs).pushAll ys := by
  simp [ActionQueue.pushAll, List.foldl_append]

theorem ActionBus.send_queue (bus B : BusTag) (d : ActionData) (s : Sys) :
    (ActionBus.send bus d s).queue B =
      (s.queue B).pushAll (Op.sentOn B (.send bus d)) := by
  by_cases h : bus = B
  · subst h
    simp [ActionBus.send, Op.sentOn, ActionQueue.pushAll, ActionBus.dispatch]
  · have h2 : B ≠ bus := fun e => h e.symm
    simp [ActionBus.send, Op.sentOn, ActionQueue.pushAll, h, Function.update_apply, h2]

theorem sendEach_queue (B : BusTag) (d : ActionData) (bs : List BusTag) :
    ∀ s : Sys,
      ((bs.foldl (fun acc b => ActionBus.send b d acc) s).queue B) =
        (s.queue B).pushAll
          ((bs.filter fun b => decide (b = B)).map fun _ => ActionBus.dispatch B d) := by
  induction bs with
  | nil => intro s; simp [ActionQueue.pushAll]
  | cons b bs ih =>
      intro s
      rw [List.foldl_cons, ih, ActionBus.send_queue]
      by_cases h : b = B
      · simp [Op.sentOn, h, ActionQueue.pushAll]
      · simp [Op.sentOn, h, ActionQueue.pushAll]

theorem sendEach_registry (d : ActionData) (bs : List BusTag) :
    ∀ s : Sys, (bs.foldl (fun acc b => ActionBus.send b d acc) s).registry = s.registry := by
  induction bs with
  | nil => intro s; rfl
  | cons b bs ih => intro s; rw [List.foldl_cons, ih]; rfl

theorem Op.sentOn_bus (B : BusTag) (op : Op) : ∀ d ∈ op.sentOn B, d.bus = B := by
  intro d hd
  cases op with
  | send b x =>
      by_cases h : b = B
      · simp only [Op.sentOn, h, if_true, List.mem_singleton] at hd
        subst hd; rfl
      · simp [Op.sentOn, h] at hd
  | send_to_bus tags a args =>
      simp only [Op.sentOn, List.mem_map] at hd
      obtain ⟨_, _, rfl⟩ := hd
      rfl
  | construct o => simp [Op.sentOn] at hd
  | destroy o => simp [Op.sentOn] at hd
  | drain b => simp [Op.sentOn] at hd

theorem ActionQueue.pushAll_routed {B : BusTag} {q : ActionQueue} {ds : List Dispatch}
    (hq : ∀ d ∈ q.pending, d.bus = B) (hds : ∀ d ∈ ds, d.bus = B) :
    ∀ d ∈ (q.pushAll ds).pending, d.bus = B := by
  intro d hd
  rw [ActionQueue.pushAll_pending] at hd
  rcases List.mem_append.1 hd with h | h
  · exact hq d h
  · exact hds d (List.mem_of_mem_take h)

/-! ## Living wrappers -/

theorem alive_erase_eq_filter {alive : List ActionReceiverOnBus} {o : ActionReceiverOnBus}
    (hnd : (alive.map ActionReceiverOnBus.this).Nodup) (ho : o ∈ alive) :
    alive.erase o = alive.filter fun x => decide (x.this ≠ o.this) := by
  rw [(List.Nodup.of_map _ hnd).erase_eq_filter]
  apply List.filter_congr
  intro x hx
  have hinj := List.inj_on_of_nodup_map hnd
  by_cases e : x = o
  · subst e; simp
  · have : x.this ≠ o.this := fun h => e (hinj hx ho h)
    simp [e, this]

theorem declared_erase_match {alive : List ActionReceiverOnBus} {o : ActionReceiverOnBus}
    (hnd : (alive.map ActionReceiverOnBus.this).Nodup) (ho : o ∈ alive)
    (p : ActionReceiverOnBus → Bool) :
    ((alive.erase o).filter p).map ActionReceiverOnBus.this =
      ((alive.filter p).map ActionReceiverOnBus.this).filter fun x => x ≠ o.this := by
  rw [alive_erase_eq_filter hnd ho, List.filter_map, List.filter_filter, List.filter_filter]
  congr 1
  apply List.filter_congr
  intro x _
  by_cases h : x.this = o.this <;> simp [h]

theorem declared_erase_other {alive : List ActionReceiverOnBus} {o : ActionReceiverOnBus}
    (hnd : (alive.map ActionReceiverOnBus.this).Nodup) (ho : o ∈ alive)
    (p : ActionReceiverOnBus → Bool) (hp : p o = false) :
    (alive.erase o).filter p = alive.filter p := by
  rw [alive_erase_eq_filter hnd ho, List.filter_filter]
  apply List.filter_congr
  intro x hx
  have hinj := List.inj_on_of_nodup_map hnd
  by_cases h : x.this = o.this
  · have : x = o := hinj hx ho h
    subst this
    simp [hp]
  · simp [h]

theorem World.declared_nodup {w : World}
    (hnd : (w.alive.map ActionReceiverOnBus.this).Nodup) (B : BusTag) (K : Action) :
    (w.declared B K).Nodup :=
  hnd.sublist (List.Sublist.map _ (List.filter_sublist _))

theorem World.mem_declared {w : World} {r : Nat} {B : BusTag} {K : Action} :
    r ∈ w.declared B K ↔ w.registered r B K := by
  simp only [World.declared, World.registered, List.mem_map, List.mem_filter,
    decide_eq_true_eq]
  constructor
  · rintro ⟨o, ⟨ho, hb, hk⟩, rfl⟩
    exact ⟨o, ho, rfl, hb, hk⟩
  · rintro ⟨o, ho, rfl, hb, hk⟩
    exact ⟨o, ⟨ho, hb, hk⟩, rfl⟩

/-! ## The invariant along an execution -/

theorem World.init_inv (capacity : BusTag → Nat) : (World.init capacity).Inv where
  addr := by simp [World.init]
  reg := by intro B K; simp [World.init, Sys.init, World.declared]
  routed := by intro B d hd; simp [World.init, Sys.init] at hd

theorem World.step_queue {w w' : World} {op : Op} {B : BusTag}
    (h : w.step op = some w') (hop : op ≠ .drain B) :
    w'.sys.queue B = (w.sys.queue B).pushAll (op.sentOn B) := by
  cases op with
  | send b d =>
      simp only [World.step, Option.some.injEq] at h
      subst h
      exact ActionBus.send_queue b B d w.sys
  | send_to_bus tags a args =>
      simp only [World.step, Option.some.injEq] at h
      subst h
      exact sendEach_queue B (a.data args) tags.flatten w.sys
  | construct o =>
      simp only [World.step] at h
      split_ifs at h
      cases hc : o.construct w.sys with
      | none => simp [hc] at h
      | some s1 =>
          simp only [hc, Option.map_some', Option.some.injEq] at h
          subst h
          obtain ⟨_, hq, _⟩ := Sys.addAll_eq_some hc
          simp [Op.sentOn, ActionQueue.pushAll, hq]
  | destroy o =>
      simp only [World.step] at h
      split_ifs at h
      simp only [Option.some.injEq] at h
      subst h
      have hq : (o.destroy w.sys).queue = w.sys.queue := by
        unfold ActionReceiverOnBus.destroy
        generalize o.actions = acts
        generalize w.sys = s
        induction acts generalizing s with
        | nil => rfl
        | cons a rest ih => rw [Sys.removeAll, ih]; rfl
      simp [Op.sentOn, ActionQueue.pushAll, hq]
  | drain b =>
      simp only [World.step, Option.some.injEq] at h
      subst h
      have hb : B ≠ b := fun e => hop (by rw [e])
      simp [Op.sentOn, ActionQueue.pushAll, ActionBus.drain, Function.update_apply, hb]

theorem World.step_inv {w w' : World} {op : Op} (hi : w.Inv) (h : w.step op = some w') :
    w'.Inv := by
  cases op with
  | send b d =>
      have hq := fun B => World.step_queue (B := B) h (by simp)
      simp only [World.step, Option.some.injEq] at h
      subst h
      refine ⟨hi.addr, hi.reg, ?_⟩
      intro B
      rw [hq B]
      exact ActionQueue.pushAll_routed (hi.routed B) (Op.sentOn_bus B _)
  | send_to_bus tags a args =>
      have hq := fun B => World.step_queue (B := B) h (by simp)
      simp only [World.step, Option.some.injEq] at h
      subst h
      refine ⟨hi.addr, ?_, ?_⟩
      · intro B K
        have := hi.reg B K
        simp only [send_to_bus, sendEach_registry]
        exact this
      · intro B
        rw [hq B]
        exact ActionQueue.pushAll_routed (hi.routed B) (Op.sentOn_bus B _)
  | construct o =>
      have hq := fun B => World.step_queue (B := B) h (by simp)
      simp only [World.step] at h
      split_ifs at h with hfresh
      cases hc : o.construct w.sys with
      | none => simp [hc] at h
      | some s1 =>
          simp only [hc, Option.map_some', Option.some.injEq] at h
          subst h
          obtain ⟨_, _, hreg⟩ := Sys.addAll_eq_some hc
          refine ⟨?_, ?_, ?_⟩
          · simp only [List.map_append, List.map_cons, List.map_nil]
            rw [List.nodup_append]
            refine ⟨hi.addr, List.nodup_singleton _, ?_⟩
            intro x hx hx2
            rw [List.mem_singleton] at hx2
            subst hx2
            exact hfresh hx
          · intro B K
            show (s1.registry B K).receivers = _
            rw [hreg B K, hi.reg B K]
            simp only [World.declared, List.filter_append, List.map_append]
            by_cases hm : B = o.bus ∧ K ∈ o.actions
            · rw [if_pos hm]
              obtain ⟨hB, hK⟩ := hm
              subst hB
              simp [hK, List.filter_cons]
            · rw [if_neg hm]
              have hm2 : ¬ (o.bus = B ∧ K ∈ o.actions) := fun e => hm ⟨e.1.symm, e.2⟩
              simp [hm2, List.filter_cons]
          · intro B
            have := hq B
            simp only [Op.sentOn, ActionQueue.pushAll, List.foldl_nil] at this
            rw [this]
            exact hi.routed B
  | destroy o =>
      have hq := fun B => World.step_queue (B := B) h (by simp)
      simp only [World.step] at h
      split_ifs at h with ho
      simp only [Option.some.injEq] at h
      subst h
      have hnd : ∀ K, (w.sys.registry o.bus K).receivers.Nodup := by
        intro K
        rw [hi.reg]
        exact World.declared_nodup hi.addr _ _
      obtain ⟨_, hreg⟩ := Sys.removeAll_spec o.actions w.sys (r := o.this) hnd
      refine ⟨?_, ?_, ?_⟩
      · exact hi.addr.sublist (List.Sublist.map _ (List.erase_sublist _ _))
      · intro B K
        show ((o.destroy w.sys).registry B K).receivers = _
        unfold ActionReceiverOnBus.destroy
        rw [hreg B K, hi.reg B K]
        simp only [World.declared]
        by_cases hm : B = o.bus ∧ K ∈ o.actions
        · rw [if_pos hm, declared_erase_match hi.addr ho]
        · rw [if_neg hm, declared_erase_other hi.addr ho]
          have hm2 : ¬ (o.bus = B ∧ K ∈ o.actions) := fun e => hm ⟨e.1.symm, e.2⟩
          simp [hm2]
      · intro B
        have := hq B
        simp only [Op.sentOn, ActionQueue.pushAll, List.foldl_nil] at this
        rw [this]
        exact hi.routed B
  | drain b =>
      simp only [World.step, Option.some.injEq] at h
      subst h
      refine ⟨hi.addr, hi.reg, ?_⟩
      intro B d hd
      by_cases hb : B = b
      · subst hb
        simp [ActionBus.drain, ActionQueue.drain] at hd
      · simp only [ActionBus.drain, Function.update_apply, hb, if_false] at hd
        exact hi.routed B d hd

theorem World.run_inv : ∀ (ops : List Op) {w w' : World}, w.Inv → w.run ops = some w' →
    w'.Inv := by
  intro ops
  induction ops with
  | nil =>
      intro w w' hi h
      simp only [World.run, Option.some.injEq] at h
      subst h
      exact hi
  | cons op ops ih =>
      intro w w' hi h
      simp only [World.run] at h
      cases h1 : w.step op with
      | none => simp [h1] at h
      | some w1 =>
          rw [h1] at h
          exact ih (World.step_inv hi h1) h

theorem World.run_queue {B : BusTag} : ∀ (ops : List Op) {w w' : World},
    w.run ops = some w' → (∀ op ∈ ops, op ≠ .drain B) →
    w'.sys.queue B = (w.sys.queue B).pushAll (ops.map (Op.sentOn B)).flatten := by
  intro ops
  induction ops with
  | nil =>
      intro w w' h _
      simp only [World.run, Option.some.injEq] at h
      subst h
      rfl
  | cons op ops ih =>
      intro w w' h hops
      simp only [World.run] at h
      cases h1 : w.step op with
      | none => simp [h1] at h
      | some w1 =>
          rw [h1] at h
          rw [ih h (fun x hx => hops x (List.mem_cons_of_mem _ hx)),
            World.step_queue h1 (hops op (List.mem_cons_self _ _))]
          simp [ActionQueue.pushAll_append]

theorem World.run_append (xs ys : List Op) : ∀ (w : World),
    w.run (xs ++ ys) = (w.run xs).bind fun w1 => w1.run ys := by
  induction xs with
  | nil => intro w; rfl
  | cons op xs ih =>
      intro w
      simp only [List.cons_append, World.run]
      cases w.step op with
      | none => rfl
      | some w1 => simp [ih]

/-! ## Handler calls of one dispatch -/

theorem ActionBus.drain_calls (B : BusTag) (s : Sys) :
    (ActionBus.drain B s).2 = ((s.queue B).pending.map (Dispatch.run s.registry)).flatten :=
  rfl

theorem call_all_filter_absent (a : Action) (args : List Int) (R : Nat) :
    ∀ l : List Nat, R ∉ l →
      ((ActionReceiverRegistry.mk l).call_all a args).filter
        (fun c => decide (c.receiver = R)) = [] := by
  intro l
  induction l with
  | nil => intro _; rfl
  | cons x xs ih =>
      intro h
      have hx : x ≠ R := fun e => h (e ▸ List.mem_cons_self _ _)
      have hxs : R ∉ xs := fun e => h (List.mem_cons_of_mem _ e)
      have := ih hxs
      simp only [ActionReceiverRegistry.call_all] at this ⊢
      simp [List.filter_cons, hx, this]

theorem call_all_filter_present (a : Action) (args : List Int) (R : Nat) :
    ∀ l : List Nat, l.Nodup → R ∈ l →
      ((ActionReceiverRegistry.mk l).call_all a args).filter
        (fun c => decide (c.receiver = R)) = [{ receiver := R, action := a, args := args }] := by
  intro l
  induction l with
  | nil => intro _ h; simp at h
  | cons x xs ih =>
      intro hnd h
      obtain ⟨hx, hxs⟩ := List.nodup_cons.1 hnd
      by_cases e : x = R
      · subst e
        have := call_all_filter_absent a args x xs hx
        simp only [ActionReceiverRegistry.call_all] at this ⊢
        simp [List.filter_cons, this]
      · have hR : R ∈ xs := by
          rcases List.mem_cons.1 h with h | h
          · exact absurd h.symm e
          · exact h
        have := ih hxs hR
        simp only [ActionReceiverRegistry.call_all] at this ⊢
        simp [List.filter_cons, e, this]

theorem World.run_filter_registered {w : World} (hi : w.Inv) {R : Nat} {B : BusTag}
    {d : Dispatch} (hb : d.bus = B) (hR : w.registered R B d.action) :
    (d.run w.sys.registry).filter (fun c => decide (c.receiver = R)) =
      [{ receiver := R, action := d.action, args := d.args }] := by
  unfold Dispatch.run
  rw [hb]
  have hnd : (w.sys.registry B d.action).receivers.Nodup := by
    rw [hi.reg]; exact World.declared_nodup hi.addr _ _
  have hm : R ∈ (w.sys.registry B d.action).receivers := by
    rw [hi.reg]; exact World.mem_declared.2 hR
  exact call_all_filter_present d.action d.args R _ hnd hm

theorem sendAll_queue (B : BusTag) (ds : List ActionData) :
    ∀ s : Sys,
      (ds.foldl (fun acc d => ActionBus.send B d acc) s).queue B =
        (s.queue B).pushAll (ds.map (ActionBus.dispatch B)) := by
  induction ds with
  | nil => intro s; rfl
  | cons d ds ih =>
      intro s
      rw [List.foldl_cons, ih, ActionBus.send_queue]
      simp [Op.sentOn, ActionQueue.pushAll]

theorem sendAll_registry (B : BusTag) (ds : List ActionData) :
    ∀ s : Sys, (ds.foldl (fun acc d => ActionBus.send B d acc) s).registry = s.registry := by
  induction ds with
  | nil => intro s; rfl
  | cons d ds ih => intro s; rw [List.foldl_cons, ih]; rfl

theorem seen_by_registered {w : World} (hi : w.Inv) {R : Nat} {B : BusTag} :
    ∀ ds : List Dispatch, (∀ d ∈ ds, d.bus = B) → (∀ d ∈ ds, w.registered R B d.action) →
      ((ds.map (Dispatch.run w.sys.registry)).flatten.filter
          fun c => decide (c.receiver = R)) =
        ds.map fun d => { receiver := R, action := d.action, args := d.args } := by
  intro ds
  induction ds with
  | nil => intro _ _; rfl
  | cons d ds ih =>
      intro hb hR
      simp only [List.map_cons, List.flatten_cons, List.filter_append]
      rw [ih (fun x hx => hb x (List.mem_cons_of_mem _ hx))
        (fun x hx => hR x (List.mem_cons_of_mem _ hx)),
        World.run_filter_registered hi (hb d (List.mem_cons_self _ _))
          (hR d (List.mem_cons_self _ _))]
      rfl

/-! ## Claims -/

/-- C1 (amended). Sends on one bus followed by one drain are observed in send
order, as far as the bounded queue accepted them: the handler calls of the
drain are the calls of the dispatches that were already pending, followed by
the calls of `d1`, then those of `d2`, and so on, each computed by `call_all` on
the registry of its kind, for the leading segment of `d1..dn` that fits into
the free room of the queue; a receiver registered for the kinds of all the
sends sees exactly the argument bundles of that segment, in the order they were
sent; the segment is all of `d1..dn` when `n` does not exceed the free room. -/
theorem send_then_drain_fifo (capacity : BusTag → Nat) (hist : List Op) (w : World)
    (hw : (World.init capacity).run hist = some w) (B : BusTag) (ds : List ActionData) :
    (ActionBus.drain B (ds.foldl (fun acc d => ActionBus.send B d acc) w.sys)).2 =
        ((w.sys.queue B).pending.map (Dispatch.run w.sys.registry)).flatten ++
          (((ds.take ((w.sys.queue B).capacity - (w.sys.queue B).pending.length)).map
            fun d => (w.sys.registry B d.action).call_all d.action d.args).flatten) ∧
      (∀ R : Nat, (∀ d ∈ ds, w.registered R B d.action) →
        ((((ds.take ((w.sys.queue B).capacity - (w.sys.queue B).pending.length)).map
            fun d => (w.sys.registry B d.action).call_all d.action d.args).flatten).filter
              fun c => decide (c.receiver = R)) =
          (ds.take ((w.sys.queue B).capacity - (w.sys.queue B).pending.length)).map
            fun d => { receiver := R, action := d.action, args := d.args }) ∧
      (ds.length ≤ (w.sys.queue B).capacity - (w.sys.queue B).pending.length →
        ds.take ((w.sys.queue B).capacity - (w.sys.queue B).pending.length) = ds) := by
  have hi : w.Inv := World.run_inv hist (World.init_inv capacity) hw
  have hmap : ∀ l : List ActionData,
      (l.map fun d => (w.sys.registry B d.action).call_all d.action d.args) =
        (l.map (ActionBus.dispatch B)).map (Dispatch.run w.sys.registry) := by
    intro l
    rw [List.map_map]
    rfl
  refine ⟨?_, ?_, List.take_of_length_le⟩
  · rw [ActionBus.drain_calls, sendAll_queue, sendAll_registry, ActionQueue.pushAll_pending,
      List.map_append, List.flatten_append, hmap]
    simp only [List.map_take]
  · intro R hR
    rw [hmap, seen_by_registered hi]
    · rw [List.map_map]; rfl
    · intro d hd
      obtain ⟨x, _, rfl⟩ := List.mem_map.1 hd
      rfl
    · intro d hd
      obtain ⟨x, hx, rfl⟩ := List.mem_map.1 hd
      exact hR x (List.mem_of_mem_take hx)

/-- C1 at sample data: three sends into a queue of capacity two; the two
accepted ones are observed in send order by both receivers. -/
theorem send_then_drain_fifo_witness :
    (World.init exCap).run exHistAB = some exWorldAB ∧
      (ActionBus.drain .LogicBus
        ([exK.data [7], exK2.data [1, 2], exK.data [9]].foldl
          (fun acc d => ActionBus.send .LogicBus d acc) exWorldAB.sys)).2 =
        [{ receiver := 100, action := exK, args := [7] },
         { receiver := 200, action := exK, args := [7] },
         { receiver := 100, action := exK2, args := [1, 2] }] :=
  ⟨rfl, (send_then_drain_fifo exCap exHistAB exWorldAB rfl .LogicBus
    [exK.data [7], exK2.data [1, 2], exK.data [9]]).1.trans (by decide)⟩

/-- C1 as stated fails when the sends exceed the free room of the queue:
receiver 100 is registered for the kinds of all three sends, the queue has room
for two, and the drain shows it the first two bundles only. -/
theorem fifo_overflowing_send_not_seen :
    (World.init exCap).run exHistAB = some exWorldAB ∧
      (∀ d ∈ [exK.data [7], exK2.data [1, 2], exK.data [9]],
        exWorldAB.registered 100 .LogicBus d.action) ∧
      (((ActionBus.drain .LogicBus
          ([exK.data [7], exK2.data [1, 2], exK.data [9]].foldl
            (fun acc d => ActionBus.send .LogicBus d acc) exWorldAB.sys)).2.filter
          fun c => decide (c.receiver = 100)).map fun c => (c.action, c.args)) =
        [(exK, [7]), (exK2, [1, 2])] ∧
      (((ActionBus.drain .LogicBus
          ([exK.data [7], exK2.data [1, 2], exK.data [9]].foldl
            (fun acc d => ActionBus.send .LogicBus d acc) exWorldAB.sys)).2.filter
          fun c => decide (c.receiver = 100)).map fun c => (c.action, c.args)) ≠
        ([exK.data [7], exK2.data [1, 2], exK.data [9]].map fun d => (d.action, d.args)) :=
  ⟨rfl, by decide, by decide, by decide⟩

theorem World.pending_after_send {w0 w2 : World} {B : BusTag} {d : ActionData}
    {ops : List Op}
    (hroom : (w0.sys.queue B).pending.length < (w0.sys.queue B).capacity)
    (hops : ∀ op ∈ ops, op ≠ .drain B)
    (hrun : w0.run (.send B d :: ops) = some w2) :
    (w2.sys.queue B).pending =
      (w0.sys.queue B).pending ++ ActionBus.dispatch B d ::
        ((ops.map (Op.sentOn B)).flatten.take
          ((w0.sys.queue B).capacity - (w0.sys.queue B).pending.length - 1)) := by
  have hall : ∀ op ∈ Op.send B d :: ops, op ≠ .drain B := by
    intro op hop
    rcases List.mem_cons.1 hop with rfl | h
    · simp
    · exact hops op h
  rw [World.run_queue _ hrun hall, ActionQueue.pushAll_pending]
  obtain ⟨k, hk⟩ : ∃ k, (w0.sys.queue B).capacity - (w0.sys.queue B).pending.length = k + 1 :=
    ⟨(w0.sys.queue B).capacity - (w0.sys.queue B).pending.length - 1, by omega⟩
  simp [hk, Op.sentOn]

/-- C2 (amended). Registry lookup happens at drain time: if `R` is not registered
for `(B, K)` when `ActionBus<B>::send(d)` is called, the queue of `B` is below
its capacity at that moment, no drain of `B` happens in between, and `R` is
registered for `(B, K)` when `B` is drained, then that drain invokes the handler
of `R` for `K` with the arguments of `d`. -/
theorem late_receiver_is_called (capacity : BusTag → Nat) (hist : List Op) (w0 : World)
    (hw0 : (World.init capacity).run hist = some w0) (B : BusTag) (d : ActionData) (R : Nat)
    (ops : List Op) (w2 : World)
    (_hnot : ¬ w0.registered R B d.action)
    (hroom : (w0.sys.queue B).pending.length < (w0.sys.queue B).capacity)
    (hops : ∀ op ∈ ops, op ≠ .drain B)
    (hrun : w0.run (.send B d :: ops) = some w2)
    (hreg : w2.registered R B d.action) :
    ({ receiver := R, action := d.action, args := d.args } : Call) ∈
      (ActionBus.drain B w2.sys).2 := by
  have hi0 : w0.Inv := World.run_inv hist (World.init_inv capacity) hw0
  have hi2 : w2.Inv := World.run_inv _ hi0 hrun
  rw [ActionBus.drain_calls, World.pending_after_send hroom hops hrun]
  simp only [List.map_append, List.map_cons, List.flatten_append, List.flatten_cons,
    List.mem_append]
  right; left
  simp only [Dispatch.run, ActionBus.dispatch, ActionReceiverRegistry.call_all, List.mem_map]
  exact ⟨R, by rw [hi2.reg]; exact World.mem_declared.2 hreg, rfl⟩

/-- C2 at sample data: a send into an empty queue, then the receiver is
constructed, then the drain calls it. -/
theorem late_receiver_is_called_witness :
    ({ receiver := 100, action := exK, args := [7] } : Call) ∈
      (ActionBus.drain .LogicBus exWorldFresh.sys).2 :=
  late_receiver_is_called exCap [] (World.init exCap) rfl .LogicBus (exK.data [7]) 100
    [.construct exA] exWorldFresh (by decide) (by decide) (by simp) rfl (by decide)

/-- C2 as stated fails when the queue is full at send time: the dispatch is
dropped, so a receiver registered between the send and the drain is not called
with its arguments. -/
theorem late_receiver_dropped_when_full :
    (World.init exCap).run exHistFull = some exWorldFull ∧
      ¬ exWorldFull.registered 100 .LogicBus exK ∧
      exWorldFull.run [.send .LogicBus (exK.data [7]), .construct exA] = some exWorldLate ∧
      exWorldLate.registered 100 .LogicBus exK ∧
      ({ receiver := 100, action := exK, args := [7] } : Call) ∉
        (ActionBus.drain .LogicBus exWorldLate.sys).2 :=
  ⟨rfl, by decide, rfl, by decide, by decide⟩

/-- C3. A receiver that has no living wrapper for `(B, K)` when a drain of `B`
begins is not called for `K` by that drain, whatever was sent while it was
registered. -/
theorem deregistered_not_called (capacity : BusTag → Nat) (hist : List Op) (w : World)
    (hw : (World.init capacity).run hist = some w) (B : BusTag) (K : Action) (R : Nat)
    (hgone : ¬ w.registered R B K) :
    ∀ c ∈ (ActionBus.drain B w.sys).2, ¬ (c.receiver = R ∧ c.action = K) := by
  have hi : w.Inv := World.run_inv hist (World.init_inv capacity) hw
  intro c hc
  rw [ActionBus.drain_calls] at hc
  simp only [List.mem_flatten, List.mem_map, exists_exists_and_eq_and] at hc
  obtain ⟨d, hd, hcd⟩ := hc
  have hb := hi.routed B d hd
  simp only [Dispatch.run, ActionReceiverRegistry.call_all, List.mem_map] at hcd
  obtain ⟨r, hr, rfl⟩ := hcd
  rw [hb, hi.reg] at hr
  rintro ⟨rfl, rfl⟩
  exact hgone (World.mem_declared.1 hr)

/-- C3 at sample data: the receiver is destroyed after the send and before the
drain, and the drain calls nobody. -/
theorem deregistered_not_called_witness :
    ¬ exWorldGone.registered 100 .LogicBus exK ∧
      (exWorldGone.sys.queue .LogicBus).pending = [ActionBus.dispatch .LogicBus (exK.data [7])] ∧
      ∀ c ∈ (ActionBus.drain .LogicBus exWorldGone.sys).2,
        ¬ (c.receiver = 100 ∧ c.action = exK) :=
  ⟨by decide, by decide,
    deregistered_not_called exCap exHistGone exWorldGone rfl .LogicBus exK 100 (by decide)⟩

/-- C4 (amended). If `R` is registered for `(B, K)` when `ActionBus<B>::send(d)`
is called and when `B` is next drained, and the queue of `B` is below its
capacity at the send, then the drain runs the dispatch of this send after the
dispatches that were pending before it and before those sent after it, and the
calls of this dispatch contain exactly one call of the handler of `R`, with the
arguments `d` had at the send. -/
theorem registered_receiver_called_once (capacity : BusTag → Nat) (hist : List Op)
    (w0 : World) (hw0 : (World.init capacity).run hist = some w0) (B : BusTag)
    (d : ActionData) (R : Nat) (ops : List Op) (w2 : World)
    (_hreg0 : w0.registered R B d.action)
    (hroom : (w0.sys.queue B).pending.length < (w0.sys.queue B).capacity)
    (hops : ∀ op ∈ ops, op ≠ .drain B)
    (hrun : w0.run (.send B d :: ops) = some w2)
    (hreg : w2.registered R B d.action) :
    (ActionBus.drain B w2.sys).2 =
        ((w0.sys.queue B).pending.map (Dispatch.run w2.sys.registry)).flatten ++
          (w2.sys.registry B d.action).call_all d.action d.args ++
          ((((ops.map (Op.sentOn B)).flatten.take
            ((w0.sys.queue B).capacity - (w0.sys.queue B).pending.length - 1)).map
              (Dispatch.run w2.sys.registry)).flatten) ∧
      ((w2.sys.registry B d.action).call_all d.action d.args).filter
          (fun c => decide (c.receiver = R)) =
        [{ receiver := R, action := d.action, args := d.args }] := by
  have hi0 : w0.Inv := World.run_inv hist (World.init_inv capacity) hw0
  have hi2 : w2.Inv := World.run_inv _ hi0 hrun
  constructor
  · rw [ActionBus.drain_calls, World.pending_after_send hroom hops hrun]
    simp only [List.map_append, List.map_cons, List.flatten_append, List.flatten_cons,
      List.append_assoc]
    rfl
  · exact World.run_filter_registered hi2 (d := ActionBus.dispatch B d) rfl hreg

/-- C4 at sample data: both receivers exist, one send into an empty queue, and
the drain calls receiver 100 exactly once with the sent argument. -/
theorem registered_receiver_called_once_witness :
    exWorldAB.registered 100 .LogicBus exK ∧
      ((exWorldAB.sys.registry .LogicBus exK).call_all exK [7]).filter
          (fun c => decide (c.receiver = 100)) =
        [{ receiver := 100, action := exK, args := [7] }] :=
  ⟨by decide,
    (registered_receiver_called_once exCap exHistAB exWorldAB rfl .LogicBus (exK.data [7]) 100
      [] (exWorldAB.step (.send .LogicBus (exK.data [7])) |>.getD exWorldAB)
      (by decide) (by decide) (by simp) rfl (by decide)).2⟩

/-- C4 as stated fails when the queue is full at send time: the receiver is
registered at the send and at the drain, yet the drain never calls it with the
arguments of that send. -/
theorem registered_receiver_dropped_when_full :
    (World.init exCap).run exHistBusy = some exWorldBusy ∧
      exWorldBusy.registered 100 .LogicBus exK ∧
      exWorldBusy.run [.send .LogicBus (exK.data [7])] = some exWorldBusy2 ∧
      exWorldBusy2.registered 100 .LogicBus exK ∧
      (ActionBus.drain .LogicBus exWorldBusy2.sys).2 =
        [{ receiver := 100, action := exK2, args := [1, 1] },
         { receiver := 100, action := exK2, args := [2, 2] }] ∧
      ({ receiver := 100, action := exK, args := [7] } : Call) ∉
        (ActionBus.drain .LogicBus exWorldBusy2.sys).2 :=
  ⟨rfl, by decide, rfl, by decide, by decide, by decide⟩

/-- C5. In every world reachable from program start, a receiver is a member of
the registry of `(B, K)` exactly when it has a living wrapper whose bus is `B`
and whose action list contains `K`.  Constructing a wrapper at a free address
with a duplicate-free action list succeeds and enters it into the registry of
each of its kinds; destroying a living wrapper leaves its address in no
registry at all. -/
theorem registration_invariant (capacity : BusTag → Nat) (hist : List Op) (w : World)
    (hw : (World.init capacity).run hist = some w) :
    (∀ B K r, r ∈ (w.sys.registry B K).receivers ↔ w.registered r B K) ∧
      (∀ o : ActionReceiverOnBus, o.this ∉ w.alive.map ActionReceiverOnBus.this →
        o.actions.Nodup →
        ∃ w1, w.step (.construct o) = some w1 ∧
          ∀ K ∈ o.actions, o.this ∈ (w1.sys.registry o.bus K).receivers) ∧
      (∀ o ∈ w.alive,
        ∃ w1, w.step (.destroy o) = some w1 ∧
          ∀ B K, o.this ∉ (w1.sys.registry B K).receivers) := by
  have hi : w.Inv := World.run_inv hist (World.init_inv capacity) hw
  refine ⟨?_, ?_, ?_⟩
  · intro B K r
    rw [hi.reg]
    exact World.mem_declared
  · intro o hfresh hnd
    have hfree : ∀ K ∈ o.actions, o.this ∉ (w.sys.registry o.bus K).receivers := by
      intro K _ hm
      rw [hi.reg] at hm
      obtain ⟨o2, ho2, he, _, _⟩ := World.mem_declared.1 hm
      exact hfresh (List.mem_map.2 ⟨o2, ho2, he⟩)
    obtain ⟨s1, hs1⟩ := Sys.addAll_isSome hnd hfree
    have hstep : w.step (.construct o) =
        some { w with sys := s1, alive := w.alive ++ [o] } := by
      simp only [World.step, hfresh, if_false, ActionReceiverOnBus.construct, hs1,
        Option.map_some']
    refine ⟨_, hstep, ?_⟩
    intro K hK
    have hi1 := World.step_inv hi hstep
    rw [hi1.reg]
    exact World.mem_declared.2 ⟨o, by simp, rfl, rfl, hK⟩
  · intro o ho
    have hstep : w.step (.destroy o) =
        some { w with sys := o.destroy w.sys, alive := w.alive.erase o } := by
      simp only [World.step, ho, if_true]
    refine ⟨_, hstep, ?_⟩
    intro B K hm
    have hi1 := World.step_inv hi hstep
    rw [hi1.reg] at hm
    obtain ⟨o2, ho2, he, _, _⟩ := World.mem_declared.1 hm
    have ho2' : o2 ∈ w.alive.erase o := ho2
    have hmem : o2 ∈ w.alive := List.mem_of_mem_erase ho2'
    have : o2 = o := List.inj_on_of_nodup_map hi.addr hmem ho he
    subst this
    exact (List.Nodup.of_map _ hi.addr).not_mem_erase ho2'

/-- C5 at sample data: after constructing `exA` and `exB`, the registry of
`(LogicBus, exK)` holds both and that of `(LogicBus, exK2)` holds only `exA`. -/
theorem registration_invariant_witness :
    (World.init exCap).run exHistAB = some exWorldAB ∧
      (∀ B K r, r ∈ (exWorldAB.sys.registry B K).receivers ↔ exWorldAB.registered r B K) ∧
      (exWorldAB.sys.registry .LogicBus exK).receivers = [100, 200] ∧
      (exWorldAB.sys.registry .LogicBus exK2).receivers = [100] :=
  ⟨rfl, (registration_invariant exCap exHistAB exWorldAB rfl).1, by decide, by decide⟩

/-- C6 (amended). For every bus `B`, `send_to_bus<Bs...>(K, args...)` pushes one
dispatch of kind `K` carrying `args` onto the queue of `B` per occurrence of `B`
in the flattened list, in order: the queue keeps what was pending, gains at its
end as many of these dispatches as it has room for, counts the others as
overflow, and keeps its capacity.  The queue of a bus that does not occur is
unchanged, as are all registries. -/
theorem send_to_bus_fanout (tags : BusTags) (a : Action) (args : List Int) (s : Sys)
    (B : BusTag) :
    ((send_to_bus tags a args s).queue B).pending =
        (s.queue B).pending ++
          List.replicate
            (min (tags.flatten.count B) ((s.queue B).capacity - (s.queue B).pending.length))
            { bus := B, action := a, args := args } ∧
      ((send_to_bus tags a args s).queue B).overflow =
        (s.queue B).overflow +
          (tags.flatten.count B - ((s.queue B).capacity - (s.queue B).pending.length)) ∧
      ((send_to_bus tags a args s).queue B).capacity = (s.queue B).capacity ∧
      (B ∉ tags.flatten → (send_to_bus tags a args s).queue B = s.queue B) ∧
      (send_to_bus tags a args s).registry = s.registry := by
  have hq := sendEach_queue B (a.data args) tags.flatten s
  have hsent : ((tags.flatten.filter fun b => decide (b = B)).map fun _ =>
      ActionBus.dispatch B (a.data args)) =
      List.replicate (tags.flatten.count B) { bus := B, action := a, args := args } := by
    generalize tags.flatten = l
    induction l with
    | nil => rfl
    | cons b l ih =>
        by_cases h : b = B
        · subst h
          simp only [List.filter_cons, decide_True, if_true, List.map_cons, ih,
            List.count_cons_self, List.replicate_succ]
          rfl
        · have hf : (b :: l).filter (fun b => decide (b = B)) =
              l.filter (fun b => decide (b = B)) := by
            simp [List.filter_cons, h]
          have hc : (b :: l).count B = l.count B := by
            simp [List.count_cons, h]
          rw [hf, hc, ih]
  unfold send_to_bus
  rw [hq, hsent]
  refine ⟨?_, ?_, ?_, ?_, sendEach_registry _ _ _⟩
  · rw [ActionQueue.pushAll_pending, List.take_replicate]
    rw [Nat.min_comm]
  · rw [ActionQueue.pushAll_overflow, List.length_replicate]
  · rw [ActionQueue.pushAll_capacity]
  · intro hB
    rw [List.count_eq_zero_of_not_mem hB]
    rfl

/-- C6 as stated fails on a full queue: `send_to_bus` for the logic and the
graphics bus appends to the graphics queue and leaves the pending dispatches of
the full logic queue as they were, counting one overflow. -/
theorem send_to_bus_full_queue_drops :
    (exWorldFull.sys.queue .LogicBus).pending =
        [ActionBus.dispatch .LogicBus (exK.data [1]),
         ActionBus.dispatch .LogicBus (exK.data [2])] ∧
      (exSysFanout.queue .LogicBus).pending = (exWorldFull.sys.queue .LogicBus).pending ∧
      (exSysFanout.queue .LogicBus).overflow = 1 ∧
      (exSysFanout.queue .GraphicsBus).pending =
        [ActionBus.dispatch .GraphicsBus (exK.data [7])] := by
  decide

/-- C7. The closure that `ActionBus<B>::send(d)` pushes is the dispatch for
`(B, kind of d)`; whenever it is run, every handler call it makes is for the
kind of `d`, carries the arguments of `d`, and goes to a receiver that has a
living wrapper registered for exactly `(B, kind of d)`.  A receiver without
such a registration, whatever else it is registered for, is not called. -/
theorem no_misrouting (capacity : BusTag → Nat) (hist : List Op) (w : World)
    (hw : (World.init capacity).run hist = some w) (B : BusTag) (d : ActionData) :
    (∀ s : Sys, (ActionBus.send B d s).queue B =
        (s.queue B).push (ActionBus.dispatch B d)) ∧
      (∀ c ∈ (ActionBus.dispatch B d).run w.sys.registry,
        c.action = d.action ∧ c.args = d.args ∧ c.receiver ∈ (w.sys.registry B d.action).receivers
          ∧ w.registered c.receiver B d.action) ∧
      (∀ R, ¬ w.registered R B d.action →
        ∀ c ∈ (ActionBus.dispatch B d).run w.sys.registry, c.receiver ≠ R) := by
  have hi : w.Inv := World.run_inv hist (World.init_inv capacity) hw
  have key : ∀ c ∈ (ActionBus.dispatch B d).run w.sys.registry,
      c.action = d.action ∧ c.args = d.args ∧
        c.receiver ∈ (w.sys.registry B d.action).receivers ∧
        w.registered c.receiver B d.action := by
    intro c hc
    simp only [Dispatch.run, ActionBus.dispatch, ActionReceiverRegistry.call_all,
      List.mem_map] at hc
    obtain ⟨r, hr, rfl⟩ := hc
    refine ⟨rfl, rfl, hr, ?_⟩
    rw [hi.reg] at hr
    exact World.mem_declared.1 hr
  refine ⟨?_, key, ?_⟩
  · intro s
    simp [ActionBus.send, ActionBus.dispatch]
  · intro R hR c hc e
    exact hR (e ▸ (key c hc).2.2.2)

/-- C7 at sample data: `exB` is registered only for `exK`, and a dispatch of
kind `exK2` on the logic bus, or of kind `exK` on the audio bus, does not call
it. -/
theorem no_misrouting_witness :
    (∀ c ∈ (ActionBus.dispatch .LogicBus (exK2.data [1, 2])).run exWorldAB.sys.registry,
        c.receiver ≠ 200) ∧
      (∀ c ∈ (ActionBus.dispatch .AudioBus (exK.data [7])).run exWorldAB.sys.registry,
        c.receiver ≠ 200) :=
  ⟨(no_misrouting exCap exHistAB exWorldAB rfl .LogicBus (exK2.data [1, 2])).2.2 200
      (by decide),
    (no_misrouting exCap exHistAB exWorldAB rfl .AudioBus (exK.data [7])).2.2 200
      (by decide)⟩

/-! ## Registration order -/

theorem World.step_alive_sublist {w w' : World} {op : Op} {l : List ActionReceiverOnBus}
    (h : w.step op = some w') (hl : ∀ x ∈ l, op ≠ .destroy x) (hs : l.Sublist w.alive) :
    l.Sublist w'.alive := by
  cases op with
  | send b d =>
      simp only [World.step, Option.some.injEq] at h
      subst h; exact hs
  | send_to_bus tags a args =>
      simp only [World.step, Option.some.injEq] at h
      subst h; exact hs
  | construct o =>
      simp only [World.step] at h
      split_ifs at h
      cases hc : o.construct w.sys with
      | none => simp [hc] at h
      | some s1 =>
          simp only [hc, Option.map_some', Option.some.injEq] at h
          subst h
          exact hs.trans (List.sublist_append_left _ _)
  | destroy o =>
      simp only [World.step] at h
      split_ifs at h
      simp only [Option.some.injEq] at h
      subst h
      have ho : o ∉ l := fun hm => hl o hm rfl
      have := hs.erase o
      rwa [List.erase_of_not_mem ho] at this
  | drain b =>
      simp only [World.step, Option.some.injEq] at h
      subst h; exact hs

theorem World.run_alive_sublist {l : List ActionReceiverOnBus} :
    ∀ (ops : List Op) {w w' : World}, w.run ops = some w' →
      (∀ x ∈ l, ∀ op ∈ ops, op ≠ .destroy x) → l.Sublist w.alive → l.Sublist w'.alive := by
  intro ops
  induction ops with
  | nil =>
      intro w w' h _ hs
      simp only [World.run, Option.some.injEq] at h
      subst h; exact hs
  | cons op ops ih =>
      intro w w' h hl hs
      simp only [World.run] at h
      cases h1 : w.step op with
      | none => simp [h1] at h
      | some w1 =>
          rw [h1] at h
          exact ih h (fun x hx o ho => hl x hx o (List.mem_cons_of_mem _ ho))
            (World.step_alive_sublist h1 (fun x hx => hl x hx op (List.mem_cons_self _ _)) hs)

theorem filter_pair_of_sublist {a b : Nat} {l : List Nat} (hnd : l.Nodup)
    (hs : [a, b].Sublist l) :
    l.filter (fun x => decide (x = a ∨ x = b)) = [a, b] := by
  have h1 : [a, b].Sublist (l.filter fun x => decide (x = a ∨ x = b)) := by
    have := hs.filter (fun x => decide (x = a ∨ x = b))
    simpa [List.filter_cons] using this
  have hnd2 : (l.filter fun x => decide (x = a ∨ x = b)).Nodup := hnd.filter _
  have hsub : (l.filter fun x => decide (x = a ∨ x = b)) ⊆ [a, b] := by
    intro x hx
    have := (List.mem_filter.1 hx).2
    simp only [decide_eq_true_eq] at this
    simpa using this
  have hlen : (l.filter fun x => decide (x = a ∨ x = b)).length ≤ [a, b].length :=
    (hnd2.subperm hsub).length_le
  exact (h1.eq_of_length_le hlen).symm

/-- C8. Receiver `A` is alive when the wrapper of `B2` is constructed, both on
bus `B` and both declaring kind `K`, and neither is destroyed afterwards.  Then
one send of kind `K` into the empty queue of `B` (of capacity at least one)
followed by one drain makes exactly the calls of `call_all` on the registry of
`(B, K)`, and among them the calls to `A` and `B2` are one call to `A` followed
by one call to `B2`, both with the sent arguments. -/
theorem handlers_in_registration_order (capacity : BusTag → Nat) (hist : List Op)
    (w1 : World) (hw1 : (World.init capacity).run hist = some w1)
    (oA oB : ActionReceiverOnBus) (ops : List Op) (w : World) (K : Action)
    (args : List Int)
    (hA : oA ∈ w1.alive)
    (hrun : w1.run (.construct oB :: ops) = some w)
    (hkeepA : ∀ op ∈ ops, op ≠ .destroy oA)
    (hkeepB : ∀ op ∈ ops, op ≠ .destroy oB)
    (hbus : oA.bus = oB.bus) (hKA : K ∈ oA.actions) (hKB : K ∈ oB.actions)
    (hempty : (w.sys.queue oB.bus).pending = [])
    (hcap : 0 < (w.sys.queue oB.bus).capacity) :
    (ActionBus.drain oB.bus (ActionBus.send oB.bus (K.data args) w.sys)).2 =
        (w.sys.registry oB.bus K).call_all K args ∧
      ((ActionBus.drain oB.bus (ActionBus.send oB.bus (K.data args) w.sys)).2.filter
          fun c => decide (c.receiver = oA.this ∨ c.receiver = oB.this)) =
        [{ receiver := oA.this, action := K, args := args },
         { receiver := oB.this, action := K, args := args }] := by
  have hi1 : w1.Inv := World.run_inv hist (World.init_inv capacity) hw1
  have hi : w.Inv := World.run_inv _ hi1 hrun
  -- the order of the living wrappers
  have hord : [oA, oB].Sublist w.alive := by
    simp only [World.run] at hrun
    cases hc : w1.step (.construct oB) with
    | none => simp [hc] at hrun
    | some w2 =>
        rw [hc] at hrun
        have h2 : [oA, oB].Sublist w2.alive := by
          simp only [World.step] at hc
          split_ifs at hc
          cases hcc : oB.construct w1.sys with
          | none => simp [hcc] at hc
          | some s1 =>
              simp only [hcc, Option.map_some', Option.some.injEq] at hc
              subst hc
              exact List.Sublist.append (List.singleton_sublist.2 hA) (List.Sublist.refl [oB])
        refine World.run_alive_sublist ops hrun ?_ h2
        intro x hx op hop
        rcases List.mem_cons.1 hx with rfl | hx
        · exact hkeepA op hop
        · rw [List.mem_singleton] at hx
          subst hx
          exact hkeepB op hop
  have hdecl : [oA.this, oB.this].Sublist (w.declared oB.bus K) := by
    have := (hord.filter fun o => decide (o.bus = oB.bus ∧ K ∈ o.actions)).map
      ActionReceiverOnBus.this
    unfold World.declared
    simpa [List.filter_cons, hbus, hKA, hKB] using this
  have hcalls : (ActionBus.drain oB.bus (ActionBus.send oB.bus (K.data args) w.sys)).2 =
      (w.sys.registry oB.bus K).call_all K args := by
    rw [ActionBus.drain_calls]
    have hq : ((ActionBus.send oB.bus (K.data args) w.sys).queue oB.bus).pending =
        [ActionBus.dispatch oB.bus (K.data args)] := by
      rw [ActionBus.send_queue]
      simp only [Op.sentOn, if_true, ActionQueue.pushAll, List.foldl_cons, List.foldl_nil]
      unfold ActionQueue.push
      rw [if_pos (by rw [hempty]; exact hcap), hempty]
      rfl
    rw [hq]
    simp [Dispatch.run, ActionBus.dispatch, Action.data, ActionBus.send]
  refine ⟨hcalls, ?_⟩
  rw [hcalls]
  unfold ActionReceiverRegistry.call_all
  rw [List.filter_map, hi.reg]
  have := filter_pair_of_sublist (World.declared_nodup hi.addr oB.bus K) hdecl
  have hfun : ((fun c : Call => decide (c.receiver = oA.this ∨ c.receiver = oB.this)) ∘
      fun r => ({ receiver := r, action := K, args := args } : Call)) =
      fun x => decide (x = oA.this ∨ x = oB.this) := rfl
  rw [hfun, this]
  rfl

/-- C8 at sample data: `exA` is constructed before `exB`; one send of `exK` on
the logic bus and one drain call `exA` and then `exB`. -/
theorem handlers_in_registration_order_witness :
    (ActionBus.drain .LogicBus (ActionBus.send .LogicBus (exK.data [7]) exWorldAB.sys)).2 =
      [{ receiver := 100, action := exK, args := [7] },
       { receiver := 200, action := exK, args := [7] }] :=
  (handlers_in_registration_order exCap [.construct exA]
    (((World.init exCap).run [.construct exA]).getD (World.init exCap)) rfl exA exB []
    exWorldAB exK [7] (by decide) rfl (by simp) (by simp) rfl (by decide) (by decide)
    (by decide) (by decide)).1.trans (by decide)

end otto.itc

namespace otto.core.props

/-! ## Rounding -/

theorem roundHalfAway_isNearest : IsNearest roundHalfAway := by
  intro q
  unfold roundHalfAway
  split_ifs with h
  · have h1 := Int.floor_le (q + 1 / 2)
    have h2 := Int.lt_floor_add_one (q + 1 / 2)
    rw [abs_le]
    constructor <;> linarith
  · have h1 := Int.le_ceil (q - 1 / 2)
    have h2 := Int.ceil_lt_add_one (q - 1 / 2)
    rw [abs_le]
    constructor <;> linarith

theorem IsNearest.eq_of_lt {rnd : ℚ → ℤ} (hr : IsNearest rnd) {q : ℚ} {k : ℤ}
    (h : |q - k| < 1 / 2) : rnd q = k := by
  have h1 := abs_le.1 (hr q)
  have h2 := abs_lt.1 h
  have h3 : ((rnd q : ℤ) : ℚ) < (k : ℚ) + 1 := by linarith
  have h4 : ((k : ℤ) : ℚ) < (rnd q : ℚ) + 1 := by linarith
  have h5 : rnd q < k + 1 := by exact_mod_cast h3
  have h6 : k < rnd q + 1 := by exact_mod_cast h4
  omega

theorem IsNearest.apply_int {rnd : ℚ → ℤ} (hr : IsNearest rnd) (k : ℤ) : rnd (k : ℚ) = k :=
  hr.eq_of_lt (by simp)

theorem IsNearest.between {rnd : ℚ → ℤ} (hr : IsNearest rnd) {q : ℚ} {a b : ℤ}
    (ha : (a : ℚ) ≤ q) (hb : q ≤ (b : ℚ)) : a ≤ rnd q ∧ rnd q ≤ b := by
  have h1 := abs_le.1 (hr q)
  have h3 : ((a : ℤ) : ℚ) < (rnd q : ℚ) + 1 := by linarith
  have h4 : ((rnd q : ℤ) : ℚ) < (b : ℚ) + 1 := by linarith
  have h5 : a < rnd q + 1 := by exact_mod_cast h3
  have h6 : rnd q < b + 1 := by exact_mod_cast h4
  omega

theorem IsNearest.nearestMultiple {rnd : ℚ → ℤ} (hr : IsNearest rnd) {s : ℚ} (hs : 0 < s)
    (x : ℚ) : IsNearestMultiple s x ((rnd (x / s) : ℚ) * s) := by
  refine ⟨rnd (x / s), rfl, ?_⟩
  intro j
  have key : ∀ m : ℤ, |x - (m : ℚ) * s| = |x / s - m| * s := by
    intro m
    have : x - (m : ℚ) * s = (x / s - m) * s := by
      field_simp
      ring
    rw [this, abs_mul, abs_of_pos hs]
  rw [key, key]
  apply mul_le_mul_of_nonneg_right _ hs.le
  by_cases hj : j = rnd (x / s)
  · rw [hj]
  · have h1 := hr (x / s)
    have h2 : (1 : ℚ) ≤ |((rnd (x / s) : ℤ) : ℚ) - (j : ℚ)| := by
      have : 1 ≤ |rnd (x / s) - j| := by
        have : rnd (x / s) - j ≠ 0 := fun e => hj (by omega)
        exact Int.one_le_abs this
      exact_mod_cast this
    have h3 : |((rnd (x / s) : ℤ) : ℚ) - (j : ℚ)| ≤
        |x / s - (rnd (x / s) : ℚ)| + |x / s - (j : ℚ)| := by
      have : ((rnd (x / s) : ℤ) : ℚ) - (j : ℚ) =
          (x / s - (j : ℚ)) - (x / s - (rnd (x / s) : ℚ)) := by ring
      rw [this]
      have := abs_sub (x / s - (j : ℚ)) (x / s - (rnd (x / s) : ℚ))
      linarith
    linarith

theorem clamp_bounds {x lo hi : ℚ} (h : lo ≤ hi) : lo ≤ clamp x lo hi ∧ clamp x lo hi ≤ hi := by
  unfold clamp
  split_ifs with h1 h2
  · exact ⟨le_refl _, h⟩
  · exact ⟨h, le_refl _⟩
  · exact ⟨not_lt.1 h1, not_lt.1 h2⟩

theorem clamp_of_mem {x lo hi : ℚ} (h1 : lo ≤ x) (h2 : x ≤ hi) : clamp x lo hi = x := by
  unfold clamp
  rw [if_neg (not_lt.2 h1), if_neg (not_lt.2 h2)]

theorem Property.set_value (p : Property) (x : ℚ) : (p.set x).1.value = p.effective x := by
  unfold Property.set
  split_ifs with h
  · exact h.symm
  · rfl

theorem Property.set_decl (p : Property) (x : ℚ) :
    (p.set x).1.decl = p.decl ∧ (p.set x).1.round = p.round := by
  unfold Property.set
  split_ifs <;> exact ⟨rfl, rfl⟩

theorem isNearestMultiple_of_abs_le {s : ℚ} (hs : 0 < s) {x : ℚ} {k : ℤ}
    (hk : |x / s - k| ≤ 1 / 2) : IsNearestMultiple s x ((k : ℚ) * s) := by
  refine ⟨k, rfl, ?_⟩
  intro j
  have key : ∀ m : ℤ, |x - (m : ℚ) * s| = |x / s - m| * s := by
    intro m
    have : x - (m : ℚ) * s = (x / s - m) * s := by
      field_simp
      ring
    rw [this, abs_mul, abs_of_pos hs]
  rw [key, key]
  apply mul_le_mul_of_nonneg_right _ hs.le
  by_cases hj : j = k
  · rw [hj]
  · have h2 : (1 : ℚ) ≤ |((k : ℤ) : ℚ) - (j : ℚ)| := by
      have : 1 ≤ |k - j| := by
        have : k - j ≠ 0 := fun e => hj (by omega)
        exact Int.one_le_abs this
      exact_mod_cast this
    have h3 : |((k : ℤ) : ℚ) - (j : ℚ)| ≤ |x / s - (k : ℚ)| + |x / s - (j : ℚ)| := by
      have : ((k : ℤ) : ℚ) - (j : ℚ) = (x / s - (j : ℚ)) - (x / s - (k : ℚ)) := by ring
      rw [this]
      have := abs_sub (x / s - (j : ℚ)) (x / s - (k : ℚ))
      linarith
    linarith

theorem keepBetween_of_mem {k lo hi : ℤ} (h1 : lo ≤ k) (h2 : k ≤ hi) :
    keepBetween k lo hi = k := by
  unfold keepBetween
  rw [if_neg (not_lt.2 h1), if_neg (not_lt.2 h2)]

theorem Property.effective_out (p : Property) {x : ℚ}
    (h : x < p.decl.min ∨ p.decl.max < x) :
    p.effective x = clamp x p.decl.min p.decl.max := by
  unfold Property.effective
  rw [if_pos h]

theorem Property.effective_step (p : Property) {s : ℚ} (hs : p.decl.step = some s) {x : ℚ}
    (h1 : p.decl.min ≤ x) (h2 : x ≤ p.decl.max) :
    p.effective x =
      (keepBetween (p.round (x / s)) ⌈p.decl.min / s⌉ ⌊p.decl.max / s⌋ : ℚ) * s := by
  unfold Property.effective
  rw [if_neg (by rintro (h | h) <;> linarith), hs]

theorem Property.effective_no_step (p : Property) (hs : p.decl.step = none) {x : ℚ}
    (h1 : p.decl.min ≤ x) (h2 : x ≤ p.decl.max) : p.effective x = x := by
  unfold Property.effective
  rw [if_neg (by rintro (h | h) <;> linarith), hs]

theorem Property.effective_congr {p q : Property} (hd : q.decl = p.decl)
    (hr : q.round = p.round) (x : ℚ) : q.effective x = p.effective x := by
  unfold Property.effective
  rw [hd, hr]

theorem Property.effective_of_grid (p : Property) (hr : IsNearest p.round) {s : ℚ}
    (hs : 0 < s) (hstep : p.decl.step = some s) {x : ℚ} (k : ℤ) (hx : x = k * s)
    (h1 : p.decl.min ≤ x) (h2 : x ≤ p.decl.max) : p.effective x = x := by
  rw [Property.effective_step p hstep h1 h2]
  have hq : x / s = (k : ℚ) := by
    rw [hx, mul_div_assoc, div_self hs.ne', mul_one]
  rw [hq, hr.apply_int, keepBetween_of_mem, hx]
  · rw [Int.ceil_le, div_le_iff₀ hs, ← hx]
    exact h1
  · rw [Int.le_floor, le_div_iff₀ hs, ← hx]
    exact h2

theorem clamp_eq_bound {x lo hi : ℚ} (hle : lo ≤ hi) (h : x < lo ∨ hi < x) :
    clamp x lo hi = lo ∨ clamp x lo hi = hi := by
  unfold clamp
  rcases h with h | h
  · left; rw [if_pos h]
  · right
    rw [if_neg (not_lt.2 (le_trans hle h.le)), if_pos h]

/-- A property whose bounds are multiples of its step. -/
theorem Property.set_on_grid (p : Property) (hr : IsNearest p.round) {s : ℚ} (hs : 0 < s)
    (hstep : p.decl.step = some s) {a b : ℤ} (hab : a ≤ b) (hmin : p.decl.min = a * s)
    (hmax : p.decl.max = b * s) (x : ℚ) :
    (x < p.decl.min ∨ p.decl.max < x →
        (p.set x).1.value = clamp x p.decl.min p.decl.max) ∧
      (p.decl.min ≤ x ∧ x ≤ p.decl.max → IsNearestMultiple s x (p.set x).1.value) ∧
      p.decl.min ≤ (p.set x).1.value ∧ (p.set x).1.value ≤ p.decl.max ∧
      ∃ k : ℤ, (p.set x).1.value = k * s := by
  have hle : p.decl.min ≤ p.decl.max := by
    rw [hmin, hmax]
    exact mul_le_mul_of_nonneg_right (by exact_mod_cast hab) hs.le
  have hlo : ⌈p.decl.min / s⌉ = a := by
    rw [hmin, mul_div_assoc, div_self hs.ne', mul_one, Int.ceil_intCast]
  have hhi : ⌊p.decl.max / s⌋ = b := by
    rw [hmax, mul_div_assoc, div_self hs.ne', mul_one, Int.floor_intCast]
  rw [Property.set_value]
  by_cases hout : x < p.decl.min ∨ p.decl.max < x
  · rw [Property.effective_out p hout]
    have hc := clamp_bounds (x := x) hle
    refine ⟨fun _ => rfl, fun hin => ?_, hc.1, hc.2, ?_⟩
    · rcases hout with h | h <;> linarith [hin.1, hin.2]
    · rcases clamp_eq_bound hle hout with h | h
      · exact ⟨a, by rw [h, hmin]⟩
      · exact ⟨b, by rw [h, hmax]⟩
  · have h1 : p.decl.min ≤ x := by
      by_contra h
      exact hout (Or.inl (not_le.1 h))
    have h2 : x ≤ p.decl.max := by
      by_contra h
      exact hout (Or.inr (not_le.1 h))
    have hbet : a ≤ p.round (x / s) ∧ p.round (x / s) ≤ b := by
      apply hr.between
      · rw [le_div_iff₀ hs, ← hmin]; exact h1
      · rw [div_le_iff₀ hs, ← hmax]; exact h2
    rw [Property.effective_step p hstep h1 h2, hlo, hhi, keepBetween_of_mem hbet.1 hbet.2]
    refine ⟨fun h => absurd h hout, fun _ => isNearestMultiple_of_abs_le hs (hr (x / s)), ?_, ?_,
      ⟨_, rfl⟩⟩
    · have h := mul_le_mul_of_nonneg_right
        (show (a : ℚ) ≤ (p.round (x / s) : ℚ) from by exact_mod_cast hbet.1) hs.le
      rwa [← hmin] at h
    · have h := mul_le_mul_of_nonneg_right
        (show (p.round (x / s) : ℚ) ≤ (b : ℚ) from by exact_mod_cast hbet.2) hs.le
      rwa [← hmax] at h

theorem Property.Settled.set_get {p : Property} (h : p.Settled) : p.set p.get = (p, []) := by
  unfold Property.set Property.get
  rw [if_pos (show p.effective p.value = p.value from h)]

theorem Property.setAll_settled (hwf : Property → Prop)
    (hset : ∀ p x, hwf p → hwf (p.set x).1 ∧ (p.set x).1.Settled) :
    ∀ (xs : List ℚ) (p : Property), hwf p → p.Settled → (p.setAll xs).Settled := by
  intro xs
  induction xs with
  | nil => intro p _ h; exact h
  | cons x xs ih =>
      intro p hp _
      exact ih (p.set x).1 (hset p x hp).1 (hset p x hp).2

/-- After any assignment, a property whose bounds are multiples of its step, or
which has no step, holds a value that an assignment of it would store again. -/
theorem Property.set_settled (p : Property) (hr : IsNearest p.round)
    (hle : p.decl.min ≤ p.decl.max)
    (hgrid : ∀ s, p.decl.step = some s →
      0 < s ∧ ∃ a b : ℤ, a ≤ b ∧ p.decl.min = a * s ∧ p.decl.max = b * s) (x : ℚ) :
    (p.set x).1.Settled := by
  unfold Property.Settled
  rw [Property.effective_congr (Property.set_decl p x).1 (Property.set_decl p x).2]
  cases hstep : p.decl.step with
  | none =>
      have hval : p.decl.min ≤ (p.set x).1.value ∧ (p.set x).1.value ≤ p.decl.max := by
        rw [Property.set_value]
        by_cases hout : x < p.decl.min ∨ p.decl.max < x
        · rw [Property.effective_out p hout]
          exact clamp_bounds hle
        · have h1 : p.decl.min ≤ x := by
            by_contra h
            exact hout (Or.inl (not_le.1 h))
          have h2 : x ≤ p.decl.max := by
            by_contra h
            exact hout (Or.inr (not_le.1 h))
          rw [Property.effective_no_step p hstep h1 h2]
          exact ⟨h1, h2⟩
      exact Property.effective_no_step p hstep hval.1 hval.2
  | some s =>
      obtain ⟨hs, a, b, hab, hmin, hmax⟩ := hgrid s hstep
      obtain ⟨_, _, h3, h4, k, hk⟩ := Property.set_on_grid p hr hs hstep hab hmin hmax x
      exact Property.effective_of_grid p hr hs hstep k hk h3 h4

end otto.core.props

namespace otto.engines.chorus

open otto.core.props

theorem feedback_grid : ⌈Props.feedback.min / 0.02⌉ = -49 ∧ ⌊Props.feedback.max / 0.02⌋ = 49 := by
  constructor
  · rw [Int.ceil_eq_iff]
    norm_num [Props.feedback]
  · rw [Int.floor_eq_iff]
    norm_num [Props.feedback]

/-- The in-range assignments of `feedback`: the stored value is `k * 0.02` for an
integer `k` between -49 and 49 that is a nearest integer to `x / 0.02`. -/
theorem feedback_in_range (p : Property) (hr : IsNearest p.round)
    (hd : p.decl = Props.feedback) {x : ℚ} (h1 : p.decl.min ≤ x) (h2 : x ≤ p.decl.max) :
    ∃ k : ℤ, p.effective x = k * 0.02 ∧ -49 ≤ k ∧ k ≤ 49 ∧ |x / 0.02 - k| ≤ 1 / 2 := by
  have hstep : p.decl.step = some 0.02 := by rw [hd]; rfl
  rw [Property.effective_step p hstep h1 h2, hd, feedback_grid.1, feedback_grid.2]
  rw [hd] at h1 h2
  have hx1 : (-99 / 2 : ℚ) ≤ x / 0.02 := by
    rw [le_div_iff₀ (by norm_num)]
    norm_num [Props.feedback] at h1
    linarith
  have hx2 : x / 0.02 ≤ (99 / 2 : ℚ) := by
    rw [div_le_iff₀ (by norm_num)]
    norm_num [Props.feedback] at h2
    linarith
  have hnear := abs_le.1 (hr (x / 0.02))
  refine ⟨keepBetween (p.round (x / 0.02)) (-49) 49, rfl, ?_, ?_, ?_⟩
  · unfold keepBetween
    split_ifs <;> omega
  · unfold keepBetween
    split_ifs <;> omega
  · unfold keepBetween
    split_ifs with ha hb
    · have : (p.round (x / 0.02) : ℚ) ≤ ((-50 : ℤ) : ℚ) := by
        exact_mod_cast (show p.round (x / 0.02) ≤ -50 by omega)
      push_cast at this ⊢
      rw [abs_le]
      constructor <;> linarith
    · have : ((50 : ℤ) : ℚ) ≤ (p.round (x / 0.02) : ℚ) := by
        exact_mod_cast (show (50 : ℤ) ≤ p.round (x / 0.02) by omega)
      push_cast at this ⊢
      rw [abs_le]
      constructor <;> linarith
    · exact hr (x / 0.02)

/-- C9. For each property declared in `chorus::Props` (`delay`, `depth`,
`feedback`, `rate`), every rounding policy that rounds to a nearest integer and
every value `x`: `set(x)` stores `clamp(x, min, max)` when `x` is out of range
and a nearest multiple of the step size when `x` is in range, and in both cases
the stored value lies within the declared inclusive range. -/
theorem set_stores_clamped_nearest (p : Property) (hr : IsNearest p.round)
    (hd : p.decl ∈ Props.all) (x : ℚ) :
    (x < p.decl.min ∨ p.decl.max < x →
        (p.set x).1.value = clamp x p.decl.min p.decl.max) ∧
      (p.decl.min ≤ x ∧ x ≤ p.decl.max →
        ∀ s, p.decl.step = some s → IsNearestMultiple s x (p.set x).1.value) ∧
      p.decl.min ≤ (p.set x).1.value ∧ (p.set x).1.value ≤ p.decl.max := by
  have grid : ∀ (s : ℚ) (a b : ℤ), 0 < s → a ≤ b → p.decl.step = some s →
      p.decl.min = a * s → p.decl.max = b * s →
      (x < p.decl.min ∨ p.decl.max < x →
        (p.set x).1.value = clamp x p.decl.min p.decl.max) ∧
      (p.decl.min ≤ x ∧ x ≤ p.decl.max →
        ∀ s, p.decl.step = some s → IsNearestMultiple s x (p.set x).1.value) ∧
      p.decl.min ≤ (p.set x).1.value ∧ (p.set x).1.value ≤ p.decl.max := by
    intro s a b hs hab hstep hmin hmax
    obtain ⟨h1, h2, h3, h4, _⟩ := Property.set_on_grid p hr hs hstep hab hmin hmax x
    refine ⟨h1, ?_, h3, h4⟩
    intro hin s2 hs2
    rw [hstep] at hs2
    cases hs2
    exact h2 hin
  simp only [Props.all, List.mem_cons, List.mem_singleton, List.not_mem_nil, or_false] at hd
  rcases hd with h | h | h | h
  · exact grid 0.01 0 100 (by norm_num) (by norm_num) (by rw [h]; rfl)
      (by rw [h]; norm_num [Props.delay]) (by rw [h]; norm_num [Props.delay])
  · exact grid 0.01 0 100 (by norm_num) (by norm_num) (by rw [h]; rfl)
      (by rw [h]; norm_num [Props.depth]) (by rw [h]; norm_num [Props.depth])
  · have hle : p.decl.min ≤ p.decl.max := by rw [h]; norm_num [Props.feedback]
    rw [Property.set_value]
    by_cases hout : x < p.decl.min ∨ p.decl.max < x
    · rw [Property.effective_out p hout]
      have hc := clamp_bounds (x := x) hle
      refine ⟨fun _ => rfl, fun hin => ?_, hc.1, hc.2⟩
      rcases hout with h3 | h3 <;> linarith [hin.1, hin.2]
    · have h1 : p.decl.min ≤ x := by
        by_contra h3
        exact hout (Or.inl (not_le.1 h3))
      have h2 : x ≤ p.decl.max := by
        by_contra h3
        exact hout (Or.inr (not_le.1 h3))
      obtain ⟨k, hk, hk1, hk2, hk3⟩ := feedback_in_range p hr h h1 h2
      rw [hk]
      refine ⟨fun h3 => absurd h3 hout, ?_, ?_, ?_⟩
      · intro _ s hs
        rw [h] at hs
        have hs2 : s = 0.02 := by
          simp only [Props.feedback, Option.some.injEq] at hs
          exact hs.symm
        rw [hs2]
        exact isNearestMultiple_of_abs_le (by norm_num) hk3
      · rw [h]
        have : ((-49 : ℤ) : ℚ) ≤ k := by exact_mod_cast hk1
        push_cast at this
        norm_num [Props.feedback]
        linarith
      · rw [h]
        have : (k : ℚ) ≤ ((49 : ℤ) : ℚ) := by exact_mod_cast hk2
        push_cast at this
        norm_num [Props.feedback]
        linarith
  · exact grid 0.02 0 100 (by norm_num) (by norm_num) (by rw [h]; rfl)
      (by rw [h]; norm_num [Props.rate]) (by rw [h]; norm_num [Props.rate])

/-- C9 at sample data: `delay` with the rounding of `std::round`, assigned 2.5,
stores the clamped value. -/
theorem set_stores_clamped_nearest_witness :
    IsNearest exDelay.round ∧ exDelay.decl ∈ Props.all ∧
      (exDelay.set 2.5).1.value = clamp 2.5 exDelay.decl.min exDelay.decl.max :=
  have hm : exDelay.decl ∈ Props.all := by simp [exDelay, Props.all]
  ⟨roundHalfAway_isNearest, hm,
    (set_stores_clamped_nearest exDelay roundHalfAway_isNearest hm 2.5).1
      (Or.inr (by norm_num [exDelay, Props.delay]))⟩

theorem Props.all_wellformed {d : Decl} (hd : d ∈ Props.all) :
    d.min ≤ d.max ∧ ∃ s : ℚ, d.step = some s ∧ 0 < s ∧
      ∃ k : ℤ, d.default = k * s ∧ d.min ≤ d.default ∧ d.default ≤ d.max := by
  simp only [Props.all, List.mem_cons, List.mem_singleton, List.not_mem_nil, or_false] at hd
  rcases hd with rfl | rfl | rfl | rfl
  · exact ⟨by norm_num [Props.delay], 0.01, rfl, by norm_num, 80,
      by norm_num [Props.delay], by norm_num [Props.delay], by norm_num [Props.delay]⟩
  · exact ⟨by norm_num [Props.depth], 0.01, rfl, by norm_num, 50,
      by norm_num [Props.depth], by norm_num [Props.depth], by norm_num [Props.depth]⟩
  · exact ⟨by norm_num [Props.feedback], 0.02, rfl, by norm_num, 0,
      by norm_num [Props.feedback], by norm_num [Props.feedback],
      by norm_num [Props.feedback]⟩
  · exact ⟨by norm_num [Props.rate], 0.02, rfl, by norm_num, 0,
      by norm_num [Props.rate], by norm_num [Props.rate], by norm_num [Props.rate]⟩

theorem boundedProperties_wellformed {d : Decl} (hd : d ∈ otto.services.boundedProperties)
    (rnd : ℚ → ℤ) (hr : IsNearest rnd) :
    d.min ≤ d.max ∧ (∀ s, d.step = some s → 0 < s) ∧
      ({ decl := d, round := rnd, value := d.default } : Property).Settled := by
  rcases List.mem_append.1 hd with h | h
  · obtain ⟨hle, s, hstep, hs, k, hk, h1, h2⟩ := Props.all_wellformed h
    refine ⟨hle, ?_, ?_⟩
    · intro s2 hs2
      rw [hstep] at hs2
      cases hs2
      exact hs
    · exact Property.effective_of_grid
        { decl := d, round := rnd, value := d.default } hr hs hstep k hk h1 h2
  · rw [List.mem_singleton] at h
    subst h
    refine ⟨by norm_num [otto.services.UIManager.State.octave], ?_, ?_⟩
    · intro s hs
      simp [otto.services.UIManager.State.octave] at hs
    · exact Property.effective_no_step
        { decl := otto.services.UIManager.State.octave, round := rnd,
          value := otto.services.UIManager.State.octave.default } rfl
        (by norm_num [otto.services.UIManager.State.octave])
        (by norm_num [otto.services.UIManager.State.octave])

/-- The declared properties whose bounds are multiples of their step, and
`octave`, which has no step. -/
theorem grid_bounds {d : Decl}
    (hd : d ∈ [Props.delay, Props.depth, Props.rate, otto.services.UIManager.State.octave]) :
    d ∈ otto.services.boundedProperties ∧
      ∀ s, d.step = some s →
        0 < s ∧ ∃ a b : ℤ, a ≤ b ∧ d.min = a * s ∧ d.max = b * s := by
  simp only [List.mem_cons, List.mem_singleton, List.not_mem_nil, or_false] at hd
  rcases hd with rfl | rfl | rfl | rfl
  · refine ⟨by simp [otto.services.boundedProperties, Props.all], ?_⟩
    intro s hs
    simp only [Props.delay, Option.some.injEq] at hs
    subst hs
    exact ⟨by norm_num, 0, 100, by norm_num, by norm_num [Props.delay],
      by norm_num [Props.delay]⟩
  · refine ⟨by simp [otto.services.boundedProperties, Props.all], ?_⟩
    intro s hs
    simp only [Props.depth, Option.some.injEq] at hs
    subst hs
    exact ⟨by norm_num, 0, 100, by norm_num, by norm_num [Props.depth],
      by norm_num [Props.depth]⟩
  · refine ⟨by simp [otto.services.boundedProperties, Props.all], ?_⟩
    intro s hs
    simp only [Props.rate, Option.some.injEq] at hs
    subst hs
    exact ⟨by norm_num, 0, 100, by norm_num, by norm_num [Props.rate],
      by norm_num [Props.rate]⟩
  · refine ⟨by simp [otto.services.boundedProperties, Props.all], ?_⟩
    intro s hs
    simp [otto.services.UIManager.State.octave] at hs

end otto.engines.chorus

namespace otto.services

open otto.core.props otto.engines.chorus

/-- C11. Every bounded property declared in the sources (`delay`, `depth`,
`feedback`, `rate` of `chorus::Props` and `UIManager::State::octave`) has a
non-degenerate range and a default value within that inclusive range; its
construction is therefore not rejected, and the value it holds in the initial
state lies within the range. -/
theorem declared_ranges_hold_initially (d : Decl) (hd : d ∈ boundedProperties) :
    d.min ≤ d.max ∧ d.min ≤ d.default ∧ d.default ≤ d.max ∧
      ∀ rnd : ℚ → ℤ,
        Property.make d rnd = some { decl := d, round := rnd, value := d.default } ∧
          d.min ≤ (({ decl := d, round := rnd, value := d.default } : Property)).get ∧
          (({ decl := d, round := rnd, value := d.default } : Property)).get ≤ d.max := by
  have key : d.min ≤ d.max ∧ d.min ≤ d.default ∧ d.default ≤ d.max := by
    rcases List.mem_append.1 hd with h | h
    · obtain ⟨hle, _, _, _, _, _, h1, h2⟩ := Props.all_wellformed h
      exact ⟨hle, h1, h2⟩
    · rw [List.mem_singleton] at h
      subst h
      norm_num [UIManager.State.octave]
  refine ⟨key.1, key.2.1, key.2.2, ?_⟩
  intro rnd
  refine ⟨?_, key.2.1, key.2.2⟩
  unfold Property.make
  rw [if_neg (not_lt.2 key.1)]

/-- C11 at sample data: `feedback`, with range [-0.99, 0.99] and default 0. -/
theorem declared_ranges_hold_initially_witness :
    Props.feedback ∈ boundedProperties ∧
      Props.feedback.min ≤ Props.feedback.max ∧
      Props.feedback.min ≤ Props.feedback.default ∧
      Props.feedback.default ≤ Props.feedback.max :=
  have hm : Props.feedback ∈ boundedProperties := by
    simp [boundedProperties, Props.all]
  ⟨hm, (declared_ranges_hold_initially Props.feedback hm).1,
    (declared_ranges_hold_initially Props.feedback hm).2.1,
    (declared_ranges_hold_initially Props.feedback hm).2.2.1⟩

end otto.services

namespace otto.itc

/-- C12. For a bus queue of capacity `N` that is empty and has counted no
overflow, `N + 1` sends before one drain leave the `N` oldest dispatches
pending, in send order, and the overflow counter at 1; each send returns a
state (it is a total function); the drain then executes exactly these `N`
dispatches in send order and empties the queue. -/
theorem overflow_drops_newest (s : Sys) (B : BusTag) (ds : List ActionData)
    (hempty : (s.queue B).pending = []) (hzero : (s.queue B).overflow = 0)
    (hlen : ds.length = (s.queue B).capacity + 1) :
    ((ds.foldl (fun acc d => ActionBus.send B d acc) s).queue B).pending =
        ds.dropLast.map (ActionBus.dispatch B) ∧
      ds.dropLast = ds.take (s.queue B).capacity ∧
      ds.dropLast.length = (s.queue B).capacity ∧
      ((ds.foldl (fun acc d => ActionBus.send B d acc) s).queue B).overflow = 1 ∧
      (ActionBus.drain B (ds.foldl (fun acc d => ActionBus.send B d acc) s)).2 =
        (ds.dropLast.map fun d =>
          (s.registry B d.action).call_all d.action d.args).flatten ∧
      ((ActionBus.drain B (ds.foldl (fun acc d => ActionBus.send B d acc) s)).1.queue
        B).pending = [] := by
  have hdrop : ds.dropLast = ds.take (s.queue B).capacity := by
    rw [List.dropLast_eq_take, hlen]
    rfl
  have hpend : ((ds.foldl (fun acc d => ActionBus.send B d acc) s).queue B).pending =
      ds.dropLast.map (ActionBus.dispatch B) := by
    rw [sendAll_queue, ActionQueue.pushAll_pending, hempty, hdrop]
    simp [List.map_take]
  refine ⟨hpend, hdrop, ?_, ?_, ?_, ?_⟩
  · rw [hdrop, List.length_take, hlen]
    omega
  · rw [sendAll_queue, ActionQueue.pushAll_overflow, hempty, hzero, List.length_map, hlen]
    simp
  · rw [ActionBus.drain_calls, hpend, sendAll_registry, List.map_map]
    rfl
  · simp [ActionBus.drain, ActionQueue.drain]

/-- C12 at sample data: three sends into the empty logic queue of capacity two
while `exA` and `exB` are registered; the third send is dropped. -/
theorem overflow_drops_newest_witness :
    (([exK.data [7], exK2.data [1, 2], exK.data [9]].foldl
        (fun acc d => ActionBus.send .LogicBus d acc) exWorldAB.sys).queue .LogicBus).pending =
        [ActionBus.dispatch .LogicBus (exK.data [7]),
         ActionBus.dispatch .LogicBus (exK2.data [1, 2])] ∧
      (([exK.data [7], exK2.data [1, 2], exK.data [9]].foldl
        (fun acc d => ActionBus.send .LogicBus d acc) exWorldAB.sys).queue .LogicBus).overflow =
        1 :=
  ⟨(overflow_drops_newest exWorldAB.sys .LogicBus
      [exK.data [7], exK2.data [1, 2], exK.data [9]] (by decide) (by decide) (by decide)).1,
    (overflow_drops_newest exWorldAB.sys .LogicBus
      [exK.data [7], exK2.data [1, 2], exK.data [9]] (by decide) (by decide)
      (by decide)).2.2.2.1⟩

/-- C13 (amended). `ActionBus<B>::send` is purely an enqueue: it always returns,
it invokes no handler, it leaves every registry, the living receivers and the
queues of all other buses unchanged, and it changes the queue of `B` only at
its end: below capacity the new dispatch is appended after the pending ones,
which stay as they were; at capacity the pending ones stay as they were, the
new dispatch is dropped and the overflow counter grows by one.  An operation
that adds handler calls to the trace is a drain. -/
theorem send_only_enqueues (w : World) (B : BusTag) (d : ActionData) :
    (∃ w1, w.step (.send B d) = some w1 ∧ w1.trace = w.trace ∧ w1.alive = w.alive ∧
        w1.sys = ActionBus.send B d w.sys) ∧
      (ActionBus.send B d w.sys).registry = w.sys.registry ∧
      (∀ B2, B2 ≠ B → (ActionBus.send B d w.sys).queue B2 = w.sys.queue B2) ∧
      ((ActionBus.send B d w.sys).queue B).capacity = (w.sys.queue B).capacity ∧
      ((ActionBus.send B d w.sys).queue B).pending =
        (w.sys.queue B).pending ++
          (if (w.sys.queue B).pending.length < (w.sys.queue B).capacity then
            [{ bus := B, action := d.action, args := d.args }] else []) ∧
      ((ActionBus.send B d w.sys).queue B).overflow =
        (w.sys.queue B).overflow +
          (if (w.sys.queue B).pending.length < (w.sys.queue B).capacity then 0 else 1) ∧
      (∀ (op : Op) (w2 : World), w.step op = some w2 → w2.trace ≠ w.trace →
        ∃ b, op = .drain b) := by
  refine ⟨⟨_, rfl, rfl, rfl, rfl⟩, rfl, ?_, ?_, ?_, ?_, ?_⟩
  · intro B2 h
    simp [ActionBus.send, Function.update_apply, h]
  · simp only [ActionBus.send, Function.update_same]
    exact ActionQueue.push_capacity _ _
  · simp only [ActionBus.send, Function.update_same, ActionQueue.push]
    split_ifs <;> simp
  · simp only [ActionBus.send, Function.update_same, ActionQueue.push]
    split_ifs <;> simp
  · intro op w2 h hne
    cases op with
    | send b x =>
        simp only [World.step, Option.some.injEq] at h
        subst h
        exact absurd rfl hne
    | send_to_bus tags a args =>
        simp only [World.step, Option.some.injEq] at h
        subst h
        exact absurd rfl hne
    | construct o =>
        simp only [World.step] at h
        split_ifs at h
        cases hc : o.construct w.sys with
        | none => simp [hc] at h
        | some s1 =>
            simp only [hc, Option.map_some', Option.some.injEq] at h
            subst h
            exact absurd rfl hne
    | destroy o =>
        simp only [World.step] at h
        split_ifs at h
        simp only [Option.some.injEq] at h
        subst h
        exact absurd rfl hne
    | drain b => exact ⟨b, rfl⟩

/-- C13 as stated fails on a full queue: the send appends nothing and the queue
changes in its overflow counter instead. -/
theorem send_on_full_queue_counts_overflow :
    (exWorldFull.sys.queue .LogicBus).pending.length =
        (exWorldFull.sys.queue .LogicBus).capacity ∧
      ((ActionBus.send .LogicBus (exK.data [7]) exWorldFull.sys).queue .LogicBus).pending =
        (exWorldFull.sys.queue .LogicBus).pending ∧
      (exWorldFull.sys.queue .LogicBus).overflow = 0 ∧
      ((ActionBus.send .LogicBus (exK.data [7]) exWorldFull.sys).queue .LogicBus).overflow =
        1 := by
  decide

end otto.itc

namespace otto.dsp

/-! ## The setters of `Sample` -/

theorem clamp_int_bounds {v lo hi : Int} (h : lo ≤ hi) : lo ≤ clamp v lo hi ∧ clamp v lo hi ≤ hi := by
  unfold clamp
  split_ifs <;> omega

theorem Sample.set_fuel_end_point (fuel : Nat) (s : Sample) (val : Int) :
    s.set_fuel (fuel + 2) .end_point val =
      if s.start_point_ > clamp val 0 s.audio_data_.length then
        some ({ s with
                start_point_ := clamp val 0 s.audio_data_.length
                end_point_ := clamp val 0 s.audio_data_.length },
              [Setter.end_point, Setter.start_point])
      else
        some ({ s with end_point_ := clamp val 0 s.audio_data_.length }, [Setter.end_point]) := by
  simp only [Sample.set_fuel, Sample.start_point, lt_self_iff_false, if_false, Option.map_some']

theorem Sample.set_fuel_start_point (fuel : Nat) (s : Sample) (val : Int) :
    s.set_fuel (fuel + 3) .start_point val =
      if s.end_point_ < val then
        if val > clamp val 0 s.audio_data_.length then
          some ({ s with
                  start_point_ := clamp val 0 s.audio_data_.length
                  end_point_ := clamp val 0 s.audio_data_.length },
                [Setter.start_point, Setter.end_point, Setter.start_point])
        else
          some ({ s with
                  start_point_ := val
                  end_point_ := clamp val 0 s.audio_data_.length },
                [Setter.start_point, Setter.end_point])
      else some ({ s with start_point_ := val }, [Setter.start_point]) := by
  rw [Sample.set_fuel]
  split_ifs with h1 h2
  · rw [Sample.set_fuel_end_point]
    simp [h2]
  · rw [Sample.set_fuel_end_point]
    simp [h2]
  · rfl

/-- C18. The mutually recursive setters terminate for every sample state and
every argument: a bound of three nested calls is never reached, any larger
bound gives the same result, and the chain of nested calls of
`start_point(val)` is `start_point`, or `start_point -> end_point`, or
`start_point -> end_point -> start_point`, that of `end_point(val)` is
`end_point` or `end_point -> start_point`. -/
theorem setters_terminate (s : Sample) (val : Int) (fuel : Nat) (hfuel : 3 ≤ fuel) :
    (∃ r, s.set_fuel fuel .start_point val = some r ∧
        s.set_fuel 3 .start_point val = some r ∧ s.set_start_point val = r.1 ∧
        r.2.length ≤ 3 ∧
        r.2 ∈ [[Setter.start_point], [Setter.start_point, Setter.end_point],
          [Setter.start_point, Setter.end_point, Setter.start_point]]) ∧
      (∃ r, s.set_fuel fuel .end_point val = some r ∧
        s.set_fuel 3 .end_point val = some r ∧ s.set_end_point val = r.1 ∧
        r.2.length ≤ 2 ∧
        r.2 ∈ [[Setter.end_point], [Setter.end_point, Setter.start_point]]) := by
  obtain ⟨k, rfl⟩ : ∃ k, fuel = k + 3 := ⟨fuel - 3, by omega⟩
  constructor
  · have h3 := Sample.set_fuel_start_point 0 s val
    have hk := Sample.set_fuel_start_point k s val
    simp only [Nat.zero_add] at h3
    unfold Sample.set_start_point
    rw [hk, h3]
    split_ifs <;> exact ⟨_, rfl, rfl, rfl, by simp, by simp⟩
  · have h3 := Sample.set_fuel_end_point 1 s val
    have hk := Sample.set_fuel_end_point (k + 1) s val
    unfold Sample.set_end_point
    rw [show k + 3 = k + 1 + 2 from rfl, hk, show (3 : Nat) = 1 + 2 from rfl, h3]
    split_ifs <;> exact ⟨_, rfl, rfl, rfl, by simp, by simp⟩

/-- C18 at sample data: `start_point(7)` on a sample over three values needs
the full chain of three nested calls and ends with both points at 3. -/
theorem setters_terminate_witness :
    (3 : Nat) ≤ 5 ∧
      (exSample.set_fuel 5 .start_point 7).map (fun r => (r.1.start_point_, r.1.end_point_, r.2))
        = some (3, 3, [Setter.start_point, Setter.end_point, Setter.start_point]) := by
  refine ⟨by decide, ?_⟩
  obtain ⟨r, h5, h3, _, _, _⟩ := (setters_terminate exSample 7 5 (by decide)).1
  rw [h5]
  rw [Sample.set_fuel_start_point 0 exSample 7] at h3
  simp only [exSample, Sample.construct, clamp] at h3
  norm_num at h3
  subst h3
  rfl

end otto.dsp

namespace otto.dsp

/-! ## The bounds of a sample -/

theorem Sample.set_start_point_eq (s : Sample) (val : Int) :
    s.set_start_point val =
      if s.end_point_ < val then
        if val > clamp val 0 s.audio_data_.length then
          { s with
            start_point_ := clamp val 0 s.audio_data_.length
            end_point_ := clamp val 0 s.audio_data_.length }
        else { s with start_point_ := val, end_point_ := clamp val 0 s.audio_data_.length }
      else { s with start_point_ := val } := by
  unfold Sample.set_start_point
  rw [Sample.set_fuel_start_point 0 s val]
  split_ifs <;> rfl

theorem Sample.set_end_point_eq (s : Sample) (val : Int) :
    s.set_end_point val =
      if s.start_point_ > clamp val 0 s.audio_data_.length then
        { s with
          start_point_ := clamp val 0 s.audio_data_.length
          end_point_ := clamp val 0 s.audio_data_.length }
      else { s with end_point_ := clamp val 0 s.audio_data_.length } := by
  unfold Sample.set_end_point
  rw [Sample.set_fuel_end_point 1 s val]
  split_ifs <;> rfl

theorem Sample.set_start_point_bounds (s : Sample) (val : Int) (h : s.Bounds) :
    (s.set_start_point val).Bounds := by
  have hc := clamp_int_bounds (v := val) (Int.ofNat_nonneg s.audio_data_.length)
  obtain ⟨h1, h2, h3⟩ := h
  rw [Sample.set_start_point_eq]
  unfold Sample.Bounds
  split_ifs with ha hb
  · exact ⟨le_refl _, hc.1, hc.2⟩
  · exact ⟨by simpa using not_lt.1 hb, hc.1, hc.2⟩
  · exact ⟨by simpa using not_lt.1 ha, h2, h3⟩

theorem Sample.set_end_point_bounds (s : Sample) (val : Int) :
    (s.set_end_point val).Bounds := by
  have hc := clamp_int_bounds (v := val) (Int.ofNat_nonneg s.audio_data_.length)
  rw [Sample.set_end_point_eq]
  unfold Sample.Bounds
  split_ifs with ha
  · exact ⟨le_refl _, hc.1, hc.2⟩
  · exact ⟨by simpa using not_lt.1 ha, hc.1, hc.2⟩

theorem Sample.apply_bounds (s : Sample) (op : SampleOp) (h : s.Bounds) : (s.apply op).Bounds := by
  cases op with
  | start_point val => exact Sample.set_start_point_bounds s val h
  | end_point val => exact Sample.set_end_point_bounds s val
  | fade_in_time val => exact h
  | fade_out_time val => exact h
  | playback_speed val => exact h

theorem Sample.run_bounds (ops : List SampleOp) :
    ∀ s : Sample, s.Bounds → (s.run ops).Bounds := by
  induction ops with
  | nil => intro s h; exact h
  | cons op ops ih =>
      intro s h
      exact ih (s.apply op) (Sample.apply_bounds s op h)

theorem wrap32_range (x : Int) : -2147483648 ≤ wrap32 x ∧ wrap32 x < 2147483648 := by
  unfold wrap32
  omega

theorem wrap32_of_range {x : Int} (h1 : -2147483648 ≤ x) (h2 : x < 2147483648) :
    wrap32 x = x := by
  unfold wrap32
  omega

/-- The bounds predicate `start_point <= end_point` and
`0 <= end_point <= audio_data.size()` holds after construction (the default
member initialiser of `start_point_` not exceeding the size of the data), is
preserved by `start_point(val)` and `end_point(val)` for every `val`, and holds
after every sequence of setter calls; `size()` is the exact difference, hence
not negative, as long as that difference is below 2^31. -/
theorem sample_bounds_preserved (dflt : Defaults) (audio_data : List ℚ) (speed_modifier : ℚ)
    (hdflt : dflt.start_point_ ≤ audio_data.length) :
    (Sample.construct dflt audio_data speed_modifier).Bounds ∧
      (∀ (s : Sample) (val : Int), s.Bounds →
        (s.set_start_point val).Bounds ∧ (s.set_end_point val).Bounds) ∧
      (∀ ops : List SampleOp,
        ((Sample.construct dflt audio_data speed_modifier).run ops).Bounds) ∧
      (∀ s : Sample, s.Bounds → s.end_point_ - s.start_point_ < 2147483648 →
        s.size = s.end_point_ - s.start_point_ ∧ 0 ≤ s.size) := by
  have h0 : (Sample.construct dflt audio_data speed_modifier).Bounds :=
    ⟨hdflt, Int.ofNat_nonneg _, le_refl _⟩
  refine ⟨h0, ?_, ?_, ?_⟩
  · intro s val h
    exact ⟨Sample.set_start_point_bounds s val h, Sample.set_end_point_bounds s val⟩
  · intro ops
    exact Sample.run_bounds ops _ h0
  · intro s hb hlt
    have h1 := hb.1
    unfold Sample.size
    rw [wrap32_of_range (by omega) hlt]
    exact ⟨rfl, by omega⟩

/-- C14. The bounds predicate does not keep `size()` from being negative: on a
sample over three values, after `start_point(-2147483648)`, the predicate
`start_point <= end_point` and `0 <= end_point <= audio_data.size()` holds,
`start_point` is -2147483648, `end_point` is 3, and the 32-bit subtraction of
`size()` yields -2147483645; this is so whatever the default member
initialisers are. -/
theorem size_negative_after_start_point (dflt : Defaults) :
    (exSampleMin dflt).Bounds ∧
      (exSampleMin dflt).start_point_ = -2147483648 ∧
      (exSampleMin dflt).end_point_ = 3 ∧
      (exSampleMin dflt).size = -2147483645 ∧
      (exSampleMin dflt).size < 0 := by
  have hs : exSampleMin dflt =
      { audio_data_ := [1, 2, 3], start_point_ := -2147483648, end_point_ := 3,
        fade_in_time_ := dflt.fade_in_time_, fade_out_time_ := dflt.fade_out_time_,
        playback_speed_ := dflt.playback_speed_, speed_modifier := 1 } := by
    unfold exSampleMin Sample.run
    simp only [List.foldl_cons, List.foldl_nil, Sample.apply]
    rw [Sample.set_start_point_eq]
    simp [Sample.construct]
  have hsize : (exSampleMin dflt).size = -2147483645 := by
    rw [hs]
    unfold Sample.size wrap32
    norm_num
  refine ⟨?_, ?_, ?_, hsize, ?_⟩
  · rw [hs]
    unfold Sample.Bounds
    norm_num
  · rw [hs]
  · rw [hs]
  · rw [hsize]
    norm_num

end otto.dsp

namespace otto.dsp

/-! ## The iterator -/

/-- When `start_point` is not negative, the bounds predicate holds and the data
has fewer than 2^31 values, the assertion of `dereference` is valid: an
iterator on the sample with an `int` index that gets past the early return has
its index within the data. -/
theorem Sample.iterator.index_in_bounds (s : Sample) (hb : s.Bounds) (hs : 0 ≤ s.start_point_)
    (hlen : (s.audio_data_.length : Int) < 2147483648)
    (i : Int) (hi1 : -2147483648 ≤ i) (hi2 : i < 2147483648) (e : ℚ)
    (hg : ¬ ({ sample_ := some s, index_ := i, error_ := e } : Sample.iterator).guard) :
    0 ≤ i ∧ i < s.audio_data_.length := by
  obtain ⟨h1, h2, h3⟩ := hb
  unfold Sample.iterator.guard Sample.iterator.start_point Sample.iterator.end_point
    Sample.iterator.signed_index Sample.iterator.playback_speed at hg
  simp only [Sample.start_point, Sample.end_point] at hg
  push_neg at hg
  obtain ⟨_, h5, h6⟩ := hg
  unfold wrap32 at h5 h6
  split_ifs at h5 h6 <;> omega

/-- C15. The assertion in `dereference` is not valid in every reachable state:
on a sample over three values, after `playback_speed(1)` and `start_point(-5)`,
the bounds predicate holds, the iterator returned by `begin()` has index -5,
gets past the early return, and fails
`OTTO_ASSERT(index_ >= 0 && index_ < audio_data_.size())`; this is so whatever
the default member initialisers are. -/
theorem dereference_assertion_fails (dflt : Defaults) (error0 : ℚ) :
    (exSampleNeg dflt).Bounds ∧
      (exSampleNeg dflt).start_point_ = -5 ∧ (exSampleNeg dflt).end_point_ = 3 ∧
      ((exSampleNeg dflt).begin error0).index = -5 ∧
      ¬ ((exSampleNeg dflt).begin error0).guard ∧
      ¬ (((exSampleNeg dflt).begin error0).index_ ≥ 0 ∧
        ((exSampleNeg dflt).begin error0).index_ < (exSampleNeg dflt).audio_data_.length) ∧
      ((exSampleNeg dflt).begin error0).dereference = Deref.assert_failed := by
  have hs : exSampleNeg dflt =
      { audio_data_ := [1, 2, 3], start_point_ := -5, end_point_ := 3,
        fade_in_time_ := dflt.fade_in_time_, fade_out_time_ := dflt.fade_out_time_,
        playback_speed_ := 1, speed_modifier := 1 } := by
    unfold exSampleNeg Sample.run
    simp only [List.foldl_cons, List.foldl_nil, Sample.apply, Sample.set_playback_speed]
    rw [Sample.set_start_point_eq]
    simp [Sample.construct]
  have hb : (exSampleNeg dflt).begin error0 =
      { sample_ := some (exSampleNeg dflt), index_ := -5, error_ := error0 } := by
    rw [hs]
    unfold Sample.begin
    norm_num [Sample.start_point]
  have hg : ¬ ((exSampleNeg dflt).begin error0).guard := by
    rw [hb, hs]
    unfold Sample.iterator.guard Sample.iterator.start_point Sample.iterator.end_point
      Sample.iterator.signed_index Sample.iterator.playback_speed
    norm_num [Sample.start_point, Sample.end_point]
  refine ⟨?_, ?_, ?_, ?_, hg, ?_, ?_⟩
  · rw [hs]
    unfold Sample.Bounds
    norm_num
  · rw [hs]
  · rw [hs]
  · rw [hb]
    rfl
  · rw [hb, hs]
    norm_num
  · unfold Sample.iterator.dereference
    rw [hb] at hg ⊢
    simp only [hg, if_false]
    rw [hs]
    norm_num

end otto.dsp

namespace otto.dsp

theorem Sample.begin_end_index (s : Sample) (error0 : ℚ) :
    (s.playback_speed_ * s.speed_modifier < 0 →
        (s.begin error0).index = wrap32 (s.end_point_ - 1) ∧
          (s.«end» error0).index = wrap32 (s.start_point_ - 1)) ∧
      (¬ s.playback_speed_ * s.speed_modifier < 0 →
        (s.begin error0).index = s.start_point_ ∧ (s.«end» error0).index = s.end_point_) ∧
      (s.playback_speed_ * s.speed_modifier < 0 →
        (-2147483648 < s.end_point_ → s.end_point_ < 2147483648 →
          (s.begin error0).index = s.end_point_ - 1) ∧
        (-2147483648 < s.start_point_ → s.start_point_ < 2147483648 →
          (s.«end» error0).index = s.start_point_ - 1)) := by
  have hrev : s.playback_speed_ * s.speed_modifier < 0 →
      (s.begin error0).index = wrap32 (s.end_point_ - 1) ∧
        (s.«end» error0).index = wrap32 (s.start_point_ - 1) := by
    intro h
    simp [Sample.iterator.index, Sample.«end», Sample.begin, h, Sample.start_point,
      Sample.end_point]
  refine ⟨hrev, ?_, ?_⟩
  · intro h
    simp [Sample.iterator.index, Sample.«end», Sample.begin, h, Sample.start_point,
      Sample.end_point]
  · intro h
    obtain ⟨h1, h2⟩ := hrev h
    constructor
    · intro ha hb
      rw [h1, wrap32_of_range (by omega) (by omega)]
    · intro ha hb
      rw [h2, wrap32_of_range (by omega) (by omega)]

/-- C16. For every sample and both playback directions, the distance
`end() - begin()` equals `size() = end_point - start_point`, both computed as
`int`: playing forward, `begin()` is at `start_point` and `end()` at
`end_point`; playing in reverse, `begin()` is at `end_point - 1` and `end()` at
`start_point - 1` (computed as `int`, which is the exact value unless the point
is the least `int`), and the signed indices differ by the same amount. -/
theorem end_minus_begin_eq_size (s : Sample) (error0 : ℚ) :
    (s.«end» error0).operator_minus (s.begin error0) = s.size ∧
      (s.playback_speed_ * s.speed_modifier < 0 →
        (s.begin error0).index = wrap32 (s.end_point_ - 1) ∧
          (s.«end» error0).index = wrap32 (s.start_point_ - 1)) ∧
      (¬ s.playback_speed_ * s.speed_modifier < 0 →
        (s.begin error0).index = s.start_point_ ∧ (s.«end» error0).index = s.end_point_) ∧
      (s.playback_speed_ * s.speed_modifier < 0 →
        (-2147483648 < s.end_point_ → s.end_point_ < 2147483648 →
          (s.begin error0).index = s.end_point_ - 1) ∧
        (-2147483648 < s.start_point_ → s.start_point_ < 2147483648 →
          (s.«end» error0).index = s.start_point_ - 1)) := by
  refine ⟨?_, Sample.begin_end_index s error0⟩
  by_cases h : s.playback_speed_ * s.speed_modifier < 0
  · simp only [Sample.iterator.operator_minus, Sample.«end», Sample.begin, h, if_true,
      Sample.iterator.signed_index, Sample.iterator.playback_speed, Sample.size,
      Sample.start_point, Sample.end_point]
    unfold wrap32
    omega
  · simp only [Sample.iterator.operator_minus, Sample.«end», Sample.begin, h, if_false,
      Sample.iterator.signed_index, Sample.iterator.playback_speed, Sample.size,
      Sample.start_point, Sample.end_point]

/-! ## Advancing -/

/-- Whenever `advance(d)` returns, whatever the `float` operations do and
whatever index its loop leaves, the final `std::clamp` puts the index between
the indices of `begin()` and `end()`: within `[start_point, end_point]` when the
playback speed is not negative and within `[start_point - 1, end_point - 1]`
when it is negative, provided `start_point <= end_point` and both are `int`
values at least two above the least one. -/
theorem advance_index_in_range (s : Sample) (hs : s.start_point_ ≤ s.end_point_)
    (hlo : -2147483646 ≤ s.start_point_) (hhi : s.end_point_ < 2147483648)
    (F : FloatOps) (fuel : Nat) (i : Int) (e : ℚ) (d : Int) (it2 : Sample.iterator)
    (hret : ({ sample_ := some s, index_ := i, error_ := e } : Sample.iterator).advance F fuel d =
      some it2) :
    (¬ s.playback_speed_ * s.speed_modifier < 0 →
        s.start_point_ ≤ it2.index ∧ it2.index ≤ s.end_point_) ∧
      (s.playback_speed_ * s.speed_modifier < 0 →
        s.start_point_ - 1 ≤ it2.index ∧ it2.index ≤ s.end_point_ - 1) := by
  unfold Sample.iterator.advance at hret
  rw [Option.map_eq_some'] at hret
  obtain ⟨m, _, hm⟩ := hret
  subst hm
  have hc : ∀ lo hi : Int, lo ≤ hi → lo ≤ clamp m (min lo hi) (max lo hi) ∧
      clamp m (min lo hi) (max lo hi) ≤ hi := by
    intro lo hi hle
    have := clamp_int_bounds (v := m) (show min lo hi ≤ max lo hi from by simp [hle])
    rwa [min_eq_left hle, max_eq_right hle] at this ⊢
  constructor
  · intro h
    simp only [Sample.iterator.index, Sample.iterator.sign, Sample.iterator.start_point,
      Sample.iterator.end_point, Sample.iterator.playback_speed, h, if_false,
      Sample.start_point, Sample.end_point, one_mul]
    rw [wrap32_of_range (by omega) (by omega), wrap32_of_range (by omega) (by omega)]
    exact hc _ _ hs
  · intro h
    simp only [Sample.iterator.index, Sample.iterator.sign, Sample.iterator.start_point,
      Sample.iterator.end_point, Sample.iterator.playback_speed, h, if_true,
      Sample.start_point, Sample.end_point]
    have e1 : wrap32 (-1 * wrap32 (-wrap32 (s.end_point_ - 1))) = s.end_point_ - 1 := by
      unfold wrap32
      omega
    have e2 : wrap32 (-1 * wrap32 (-wrap32 (s.start_point_ - 1))) = s.start_point_ - 1 := by
      unfold wrap32
      omega
    rw [e1, e2]
    have hle : s.start_point_ - 1 ≤ s.end_point_ - 1 := by omega
    have := clamp_int_bounds (v := m)
      (show min (s.end_point_ - 1) (s.start_point_ - 1) ≤
        max (s.end_point_ - 1) (s.start_point_ - 1) from by simp [hle])
    rwa [min_eq_right hle, max_eq_left hle] at this ⊢

/-- With exact `float` operations, the loop of `advance` ends when the bound is
a whole number below 2^31 and the tests allowed exceed it. -/
theorem Sample.iterator.step_loop_returns (n : Nat) (hn : (n : Int) < 2147483648) (dir : ℚ) :
    ∀ (k : Nat) (i : Nat) (index : Int), i + k = n →
      ∃ m, Sample.iterator.step_loop FloatOps.exact (n : ℚ) dir (k + 1) (i : Int) index =
        some m := by
  intro k
  induction k with
  | zero =>
      intro i index h
      refine ⟨index, ?_⟩
      have : i = n := by omega
      subst this
      simp [Sample.iterator.step_loop, FloatOps.exact]
  | succ k ih =>
      intro i index h
      have hne : ((i : Int) : ℚ) ≠ (n : ℚ) := by
        intro e
        have : i = n := by exact_mod_cast e
        omega
      obtain ⟨m, hm⟩ := ih (i + 1) (FloatOps.exact.toInt
        (FloatOps.exact.add (FloatOps.exact.ofInt index) dir)) (by omega)
      refine ⟨m, ?_⟩
      rw [Sample.iterator.step_loop]
      have hw : wrap32 ((i : Int) + 1) = ((i + 1 : Nat) : Int) := by
        rw [wrap32_of_range (by omega) (by omega)]
        push_cast
        rfl
      simp only [FloatOps.exact] at hm ⊢
      rw [if_neg hne, hw]
      exact hm

/-- With exact `float` operations and direction 1, the loop of `advance` with a
whole bound below 2^31 ends and leaves the index increased by the steps that
were left. -/
theorem Sample.iterator.step_loop_forward (n : Nat) (hn : (n : Int) < 2147483648)
    (bound dir : ℚ) (hbound : bound = (n : ℚ)) (hdir : dir = 1) :
    ∀ (k : Nat) (i : Nat) (index : Int), i + k = n →
      Sample.iterator.step_loop FloatOps.exact bound dir (k + 1) (i : Int) index =
        some (index + k) := by
  subst hbound hdir
  intro k
  induction k with
  | zero =>
      intro i index h
      have : i = n := by omega
      subst this
      simp [Sample.iterator.step_loop, FloatOps.exact]
  | succ k ih =>
      intro i index h
      have hne : ((i : Int) : ℚ) ≠ (n : ℚ) := by
        intro e
        have : i = n := by exact_mod_cast e
        omega
      have hw : wrap32 ((i : Int) + 1) = ((i + 1 : Nat) : Int) := by
        rw [wrap32_of_range (by omega) (by omega)]
        push_cast
        rfl
      have hmodf : modf_int ((index : ℚ) + 1) = index + 1 := by
        unfold modf_int
        have e : ((index : ℚ) + 1) = ((index + 1 : Int) : ℚ) := by push_cast; rfl
        rw [e]
        split_ifs
        · exact Int.floor_intCast _
        · exact Int.ceil_intCast _
      have ih2 := ih (i + 1) (index + 1) (by omega)
      rw [Sample.iterator.step_loop]
      simp only [FloatOps.exact] at ih2 ⊢
      rw [if_neg hne, hw, hmodf, ih2]
      exact congrArg some (by push_cast; ring)

/-- With a bound of 2^32, the `int` counter of the loop never equals the bound:
the loop does not end. -/
theorem Sample.iterator.step_loop_never (dir : ℚ) :
    ∀ (fuel : Nat) (i index : Int), -2147483648 ≤ i → i < 2147483648 →
      Sample.iterator.step_loop FloatOps.exact 4294967296 dir fuel i index = none := by
  intro fuel
  induction fuel with
  | zero => intro i index _ _; rfl
  | succ fuel ih =>
      intro i index h1 h2
      have hne : ((i : Int) : ℚ) ≠ 4294967296 := by
        intro e
        have : i = 4294967296 := by exact_mod_cast e
        omega
      rw [Sample.iterator.step_loop]
      simp only [FloatOps.exact]
      rw [if_neg hne]
      exact ih _ _ (wrap32_range _).1 (wrap32_range _).2

/-- C17. `advance(d)` does not return for every step count: on a sample over
three values played forward at speed 1, from the iterator `begin()` with index
0, `advance(4294967296)` computes 2^32 whole steps, its `int` loop counter never
equals this bound, and the loop does not end, however many tests of the loop
condition are allowed; with step count 10 it returns, with the index clamped to
`end_point`. -/
theorem advance_does_not_return :
    (exSample.begin 0).index = 0 ∧
      (exSample.begin 0).playback_speed = 1 ∧
      (exSample.begin 0).whole_steps FloatOps.exact 4294967296 = (4294967296, 0) ∧
      (¬ ∃ fuel : Nat, ((exSample.begin 0).advance FloatOps.exact fuel 4294967296).isSome) ∧
      ((exSample.begin 0).advance FloatOps.exact 11 10).map Sample.iterator.index = some 3 := by
  have hb : exSample.begin 0 = { sample_ := some exSample, index_ := 0, error_ := 0 } := by
    unfold Sample.begin
    norm_num [exSample, Sample.construct, exDefaults, Sample.start_point]
  have hp : (exSample.begin 0).playback_speed = 1 := by
    rw [hb]
    norm_num [Sample.iterator.playback_speed, exSample, Sample.construct, exDefaults]
  have hmodf : ∀ n : ℕ, modf_int ((n : ℚ)) = (n : Int) := by
    intro n
    unfold modf_int
    rw [if_pos (by positivity)]
    exact_mod_cast Int.floor_natCast n
  have hw : ∀ n : ℕ, (exSample.begin 0).whole_steps FloatOps.exact (n : Int) = ((n : ℚ), 0) := by
    intro n
    have ht : FloatOps.exact.add (exSample.begin 0).error_
        (FloatOps.exact.mul (exSample.begin 0).playback_speed
          (FloatOps.exact.ofInt (n : Int))) = (n : ℚ) := by
      rw [hp, hb]
      simp [FloatOps.exact]
    unfold Sample.iterator.whole_steps
    rw [ht, hmodf]
    simp
  have hw32 : (exSample.begin 0).whole_steps FloatOps.exact 4294967296 = (4294967296, 0) := by
    have := hw 4294967296
    norm_num at this
    exact this
  refine ⟨by rw [hb]; rfl, hp, hw32, ?_, ?_⟩
  · rintro ⟨fuel, h⟩
    unfold Sample.iterator.advance at h
    rw [hw32] at h
    have habs : |(4294967296 : ℚ)| = 4294967296 := abs_of_pos (by norm_num)
    simp only [habs] at h
    rw [Sample.iterator.step_loop_never _ fuel 0 _ (by norm_num) (by norm_num)] at h
    simp at h
  · have hw10 : (exSample.begin 0).whole_steps FloatOps.exact 10 = (10, 0) := by
      have := hw 10
      norm_num at this
      exact this
    unfold Sample.iterator.advance
    rw [hw10]
    have habs : |(10 : ℚ)| = 10 := abs_of_pos (by norm_num)
    simp only [habs]
    have hloop := Sample.iterator.step_loop_forward 10 (by norm_num) (10 : ℚ) ((10 : ℚ) / 10)
      (by norm_num) (by norm_num) 10 0 (exSample.begin 0).index_ (by norm_num)
    simp only [Nat.cast_zero, Nat.cast_ofNat] at hloop
    rw [hloop, hb]
    norm_num [Sample.iterator.index, Sample.iterator.sign, Sample.iterator.start_point,
      Sample.iterator.end_point, Sample.iterator.playback_speed, exSample, Sample.construct,
      exDefaults, Sample.start_point, Sample.end_point, wrap32, clamp]

/-! ## Dereferencing -/

theorem Sample.iterator.guard_at_end (s : Sample) (error0 e : ℚ) :
    ({ sample_ := some s, index_ := (s.«end» error0).index, error_ := e } :
      Sample.iterator).guard := by
  unfold Sample.iterator.guard
  right; right
  by_cases h : s.playback_speed_ * s.speed_modifier < 0
  · simp [Sample.iterator.signed_index, Sample.iterator.end_point,
      Sample.iterator.playback_speed, Sample.iterator.index, Sample.«end», h,
      Sample.start_point]
  · simp [Sample.iterator.signed_index, Sample.iterator.end_point,
      Sample.iterator.playback_speed, Sample.iterator.index, Sample.«end», h,
      Sample.end_point]

theorem Sample.iterator.guard_of_empty (s : Sample) (hempty : s.start_point_ = s.end_point_)
    (i : Int) (e : ℚ) :
    ({ sample_ := some s, index_ := i, error_ := e } : Sample.iterator).guard := by
  unfold Sample.iterator.guard
  left
  by_cases h : s.playback_speed_ * s.speed_modifier < 0
  · simp [Sample.iterator.start_point, Sample.iterator.end_point,
      Sample.iterator.playback_speed, h, Sample.start_point, Sample.end_point, hempty]
  · simp [Sample.iterator.start_point, Sample.iterator.end_point,
      Sample.iterator.playback_speed, h, Sample.start_point, Sample.end_point, hempty]

/-- C19. For every sample and both playback directions, dereferencing the
past-the-end iterator yields silence: `end()` itself, and every iterator on the
sample whose index equals that of `end()` (`end_point` when playing forward,
`start_point - 1` when playing in reverse, computed as `int`, which is the exact
value unless `start_point` is the least `int`), take the early return of `0.f` and
read no data; so does every iterator on an empty sample
(`start_point == end_point`). -/
theorem past_the_end_is_silent (s : Sample) (error0 e : ℚ) :
    (s.«end» error0).dereference = Deref.silence ∧
      ({ sample_ := some s, index_ := (s.«end» error0).index, error_ := e } :
        Sample.iterator).dereference = Deref.silence ∧
      (¬ s.playback_speed_ * s.speed_modifier < 0 → (s.«end» error0).index = s.end_point_) ∧
      (s.playback_speed_ * s.speed_modifier < 0 →
        (s.«end» error0).index = wrap32 (s.start_point_ - 1)) ∧
      (s.playback_speed_ * s.speed_modifier < 0 → -2147483648 < s.start_point_ →
        s.start_point_ < 2147483648 → (s.«end» error0).index = s.start_point_ - 1) ∧
      (s.start_point_ = s.end_point_ →
        ∀ (i : Int) (e2 : ℚ),
          ({ sample_ := some s, index_ := i, error_ := e2 } : Sample.iterator).dereference =
            Deref.silence) := by
  have hends := Sample.begin_end_index s error0
  have key : ({ sample_ := some s, index_ := (s.«end» error0).index, error_ := e } :
      Sample.iterator).dereference = Deref.silence := by
    unfold Sample.iterator.dereference
    simp only [Sample.iterator.guard_at_end s error0 e, if_true]
  refine ⟨?_, key, fun h => (hends.2.1 h).2, fun h => (hends.1 h).2,
    fun h => (hends.2.2 h).2, ?_⟩
  · have hg := Sample.iterator.guard_at_end s error0 error0
    have he : s.«end» error0 =
        { sample_ := some s, index_ := (s.«end» error0).index, error_ := error0 } := by
      unfold Sample.«end» Sample.iterator.index
      split_ifs <;> rfl
    rw [he]
    unfold Sample.iterator.dereference
    simp only [hg, if_true]
  · intro hempty i e2
    unfold Sample.iterator.dereference
    simp only [Sample.iterator.guard_of_empty s hempty i e2, if_true]

end otto.dsp

namespace otto.engines.chorus

open otto.core.props

/-- C10 (amended). A property sends change actions only on effective change.
`set(get())` sends nothing and changes nothing whenever the current value lies
within the range and is a multiple of the step (or the property has no step).
This is the case in the initial state and after any sequence of assignments for
`delay`, `depth`, `rate` and `octave`, and for `feedback` in the initial state
and after every in-range assignment.  For `delay` (default 0.8, range [0, 1],
step 0.01), `set(0.83)` stores 0.83 and sends exactly one change action,
carrying 0.83 and the identity of `delay`, and a repeated `set(0.83)` sends
nothing. -/
theorem set_sends_only_on_change (rnd : ℚ → ℤ) (hr : IsNearest rnd) :
    (∀ p : Property, p.round = rnd → p.decl.min ≤ p.value → p.value ≤ p.decl.max →
        (∀ s, p.decl.step = some s → 0 < s ∧ ∃ k : ℤ, p.value = k * s) →
        p.set p.get = (p, [])) ∧
      (∀ d ∈ [Props.delay, Props.depth, Props.rate, otto.services.UIManager.State.octave],
        ∀ xs : List ℚ,
          Property.make d rnd = some { decl := d, round := rnd, value := d.default } ∧
            ((Property.setAll { decl := d, round := rnd, value := d.default } xs).set
              (Property.setAll { decl := d, round := rnd, value := d.default } xs).get).2 =
              []) ∧
      (Property.make Props.feedback rnd =
          some { decl := Props.feedback, round := rnd, value := Props.feedback.default } ∧
        (({ decl := Props.feedback, round := rnd, value := Props.feedback.default } :
          Property).set Props.feedback.default).2 = [] ∧
        ∀ p : Property, p.decl = Props.feedback → p.round = rnd →
          ∀ x, p.decl.min ≤ x → x ≤ p.decl.max →
            ((p.set x).1.set (p.set x).1.get).2 = []) ∧
      (({ decl := Props.delay, round := rnd, value := 0.8 } : Property).set 0.83).1.value =
        0.83 ∧
      (({ decl := Props.delay, round := rnd, value := 0.8 } : Property).set 0.83).2 =
        [{ property := Props.delay.tag, value := 0.83, buses := Props.delay.buses }] ∧
      ((({ decl := Props.delay, round := rnd, value := 0.8 } : Property).set 0.83).1.set
        0.83).2 = [] := by
  have settled : ∀ p : Property, p.round = rnd → p.decl.min ≤ p.value →
      p.value ≤ p.decl.max →
      (∀ s, p.decl.step = some s → 0 < s ∧ ∃ k : ℤ, p.value = k * s) → p.Settled := by
    intro p hp h1 h2 hg
    cases hstep : p.decl.step with
    | none => exact Property.effective_no_step p hstep h1 h2
    | some s =>
        obtain ⟨hs, k, hk⟩ := hg s hstep
        exact Property.effective_of_grid p (hp ▸ hr) hs hstep k hk h1 h2
  refine ⟨?_, ?_, ?_, ?_⟩
  · intro p hp h1 h2 hg
    exact (settled p hp h1 h2 hg).set_get
  · intro d hd xs
    obtain ⟨hmem, hgrid⟩ := grid_bounds hd
    obtain ⟨hle, _, hinit⟩ := boundedProperties_wellformed hmem rnd hr
    constructor
    · unfold Property.make
      rw [if_neg (not_lt.2 hle)]
    · have hsettled : (Property.setAll { decl := d, round := rnd, value := d.default }
          xs).Settled := by
        apply Property.setAll_settled (fun p => p.decl = d ∧ p.round = rnd)
        · intro p x hp
          obtain ⟨hpd, hpr⟩ := hp
          refine ⟨⟨(Property.set_decl p x).1.trans hpd, (Property.set_decl p x).2.trans hpr⟩,
            ?_⟩
          exact Property.set_settled p (hpr ▸ hr) (hpd ▸ hle) (hpd ▸ hgrid) x
        · exact ⟨rfl, rfl⟩
        · exact hinit
      rw [hsettled.set_get]
  · have hmem : Props.feedback ∈ otto.services.boundedProperties := by
      simp [otto.services.boundedProperties, Props.all]
    obtain ⟨hle, _, hinit⟩ := boundedProperties_wellformed hmem rnd hr
    refine ⟨?_, ?_, ?_⟩
    · unfold Property.make
      rw [if_neg (not_lt.2 hle)]
    · have := hinit.set_get
      unfold Property.get at this
      rw [this]
    · intro p hd hp x h1 h2
      obtain ⟨k, hk, hk1, hk2, _⟩ := feedback_in_range p (hp ▸ hr) hd h1 h2
      obtain ⟨hdecl, hround⟩ := Property.set_decl p x
      have hval : (p.set x).1.value = k * 0.02 := by rw [Property.set_value, hk]
      have hlo : ((-49 : ℤ) : ℚ) ≤ k := by exact_mod_cast hk1
      have hhi : (k : ℚ) ≤ ((49 : ℤ) : ℚ) := by exact_mod_cast hk2
      push_cast at hlo hhi
      have hs : (p.set x).1.Settled := by
        apply settled (p.set x).1 (hround.trans hp)
        · rw [hdecl, hd, hval]
          norm_num [Props.feedback]
          linarith
        · rw [hdecl, hd, hval]
          norm_num [Props.feedback]
          linarith
        · intro s hs
          rw [hdecl, hd] at hs
          simp only [Props.feedback, Option.some.injEq] at hs
          subst hs
          exact ⟨by norm_num, k, hval⟩
      rw [hs.set_get]
  · have heff : ∀ v : ℚ, ({ decl := Props.delay, round := rnd, value := v } : Property).effective
        0.83 = 0.83 := by
      intro v
      exact Property.effective_of_grid { decl := Props.delay, round := rnd, value := v } hr
        (s := 0.01) (by norm_num) rfl 83 (by norm_num) (by norm_num [Props.delay])
        (by norm_num [Props.delay])
    have hset : ({ decl := Props.delay, round := rnd, value := 0.8 } : Property).set 0.83 =
        ({ decl := Props.delay, round := rnd, value := 0.83 },
          [{ property := Props.delay.tag, value := 0.83, buses := Props.delay.buses }]) := by
      unfold Property.set
      rw [heff]
      rw [if_neg (by norm_num)]
    rw [hset]
    refine ⟨rfl, rfl, ?_⟩
    show (({ decl := Props.delay, round := rnd, value := 0.83 } : Property).set 0.83).2 = []
    unfold Property.set
    rw [heff, if_pos rfl]

/-- C10 at sample data: with the rounding of `std::round`, `set(0.83)` on the
initial `delay` sends one change action and a repeated `set(0.83)` sends
nothing. -/
theorem set_sends_only_on_change_witness :
    IsNearest roundHalfAway ∧
      (exDelay.set 0.83).2 =
        [{ property := 0, value := 0.83, buses := [.AudioBus, .GraphicsBus] }] ∧
      ((exDelay.set 0.83).1.set 0.83).2 = [] :=
  ⟨roundHalfAway_isNearest,
    (set_sends_only_on_change roundHalfAway roundHalfAway_isNearest).2.2.2.2.1,
    (set_sends_only_on_change roundHalfAway roundHalfAway_isNearest).2.2.2.2.2⟩

theorem roundHalfAway_half (n : ℤ) (hn : 0 ≤ n) :
    roundHalfAway ((n : ℚ) + 1 / 2) = n + 1 := by
  unfold roundHalfAway
  have h0 : (0 : ℚ) ≤ (n : ℚ) + 1 / 2 := by
    have : (0 : ℚ) ≤ n := by exact_mod_cast hn
    linarith
  rw [if_pos h0, Int.floor_eq_iff]
  push_cast
  constructor <;> linarith

/-- C10 as stated fails for a property whose current value is not a legal
stored value.  With the rounding of `std::round`: a property constructed with
default 0.805, range [0, 1] and step 0.01 sends one change action on
`set(get())` in its initial state; and `feedback`, after `set(5)` has stored the
clamped value 0.99, sends one change action on `set(get())`, because the
nearest multiples of 0.02 to 0.99 are 0.98 and 1.00. -/
theorem set_get_sends_off_grid :
    Property.make exOffGrid roundHalfAway =
        some { decl := exOffGrid, round := roundHalfAway, value := 0.805 } ∧
      (({ decl := exOffGrid, round := roundHalfAway, value := 0.805 } : Property).set
        ({ decl := exOffGrid, round := roundHalfAway, value := 0.805 } : Property).get).2 =
        [{ property := 9, value := 0.81, buses := [] }] ∧
      (exFeedback.set 5).1.value = 0.99 ∧
      ((exFeedback.set 5).1.set (exFeedback.set 5).1.get).2 =
        [{ property := 2, value := 0.98, buses := [.AudioBus, .GraphicsBus] }] := by
  have e1 : ({ decl := exOffGrid, round := roundHalfAway, value := 0.805 } :
      Property).effective 0.805 = 0.81 := by
    rw [Property.effective_step _ (s := 0.01) rfl (by norm_num [exOffGrid])
      (by norm_num [exOffGrid])]
    have hq : (0.805 : ℚ) / 0.01 = ((80 : ℤ) : ℚ) + 1 / 2 := by norm_num
    have hlo : ⌈exOffGrid.min / 0.01⌉ = 0 := by
      rw [Int.ceil_eq_iff]; norm_num [exOffGrid]
    have hhi : ⌊exOffGrid.max / 0.01⌋ = 100 := by
      rw [Int.floor_eq_iff]; norm_num [exOffGrid]
    show ((keepBetween (roundHalfAway (0.805 / 0.01)) ⌈exOffGrid.min / 0.01⌉
      ⌊exOffGrid.max / 0.01⌋ : ℤ) : ℚ) * 0.01 = 0.81
    rw [hq, roundHalfAway_half 80 (by norm_num), hlo, hhi,
      keepBetween_of_mem (by norm_num) (by norm_num)]
    norm_num
  have e2 : exFeedback.effective 5 = 0.99 := by
    rw [Property.effective_out exFeedback (Or.inr (by norm_num [exFeedback, Props.feedback]))]
    unfold clamp
    norm_num [exFeedback, Props.feedback]
  have s2 : exFeedback.set 5 =
      ({ decl := Props.feedback, round := roundHalfAway, value := 0.99 },
        [{ property := 2, value := 0.99, buses := [.AudioBus, .GraphicsBus] }]) := by
    unfold Property.set
    rw [e2, if_neg (by norm_num [exFeedback])]
    rfl
  have e3 : ({ decl := Props.feedback, round := roundHalfAway, value := 0.99 } :
      Property).effective 0.99 = 0.98 := by
    rw [Property.effective_step _ (s := 0.02) rfl (by norm_num [Props.feedback])
      (by norm_num [Props.feedback])]
    have hq : (0.99 : ℚ) / 0.02 = ((49 : ℤ) : ℚ) + 1 / 2 := by norm_num
    show ((keepBetween (roundHalfAway (0.99 / 0.02)) ⌈Props.feedback.min / 0.02⌉
      ⌊Props.feedback.max / 0.02⌋ : ℤ) : ℚ) * 0.02 = 0.98
    rw [hq, roundHalfAway_half 49 (by norm_num), feedback_grid.1, feedback_grid.2]
    norm_num [keepBetween]
  refine ⟨?_, ?_, ?_, ?_⟩
  · unfold Property.make
    rw [if_neg (by norm_num [exOffGrid])]
    rfl
  · unfold Property.set Property.get
    rw [e1, if_neg (by norm_num)]
    rfl
  · rw [s2]
  · rw [s2]
    unfold Property.set Property.get
    rw [e3, if_neg (by norm_num)]
    rfl

end otto.engines.chorus
